import Mathlib

/-
Verification of the Nerdle core (src/nerdle): feedback scoring, histogram
partitioning, guess selection (minimax, shallow and deep), and the
simulation loops.

Words are embedded as lists of letter codes (one natural number per
position, as produced by `to_vector` in scoring.py, `ord(c) - 64`).
Lists stand in for numpy arrays and Python lists; association lists stand
in for dicts keyed in first-insertion order; fallible code returns
`Except`.
-/

namespace Nerdle

/-- A word is its letter-code vector, one natural number per position. -/
abbrev Word := List Nat

/-! ### Scorer (scoring.py) -/

/-- Positionwise matches between solution and guess
(`matches = solution_array == guess_array` in `score_word_jit`). -/
def wordMatches (s g : Word) : List Bool := List.zipWith (fun a b => a == b) s g

/-- Whether position `i` is an exact match. -/
def isMatch (s g : Word) (i : Nat) : Bool := (wordMatches s g).getD i false

/-- `num_times_already_observed` in `score_word_jit`: the number of earlier
non-exact guess positions `j < i` carrying the same letter as guess position `i`. -/
def alreadyObserved (s g : Word) (i : Nat) : Nat :=
  ((List.range i).filter (fun j => !isMatch s g j && (g.getD j 0 == g.getD i 0))).length

/-- `num_times_in_solution` in `score_word_jit`: the number of non-exact
solution positions carrying the letter of guess position `i`. -/
def numTimesInSolution (s g : Word) (i : Nat) : Nat :=
  ((List.range (wordMatches s g).length).filter
    (fun j => !isMatch s g j && (g.getD i 0 == s.getD j 0))).length

/-- The power-of-three weight of position `i`: entry `i` of the Scorer's
`_powers = 3 ** arange(size - 1, -1, -1)`. -/
def posPower (L i : Nat) : Nat := 3 ^ (L - 1 - i)

/-- `score_word_jit`: exact matches contribute `2 * powers[i]`; each non-exact
position `i` contributes `powers[i]` exactly when
`num_times_already_observed < num_times_in_solution`. -/
def score_word_jit (s g : Word) : Nat :=
  (((List.range (wordMatches s g).length).filter (fun i => isMatch s g i)).map
      (fun i => 2 * posPower (wordMatches s g).length i)).sum
  + (((List.range (wordMatches s g).length).filter (fun i => !isMatch s g i)).map
      (fun i => if alreadyObserved s g i < numTimesInSolution s g i
                then posPower (wordMatches s g).length i else 0)).sum

/-- `Scorer.score_word`: scores the guess word vectors with `score_word_jit`. -/
def score_word (s g : Word) : Nat := score_word_jit s g

/-- Little-endian base-3 digits of the second argument; the first argument is
structural fuel (passing the number itself is always enough fuel). -/
def ternDigits : Nat → Nat → List Nat
  | 0, _ => []
  | _ + 1, 0 => []
  | fuel + 1, n + 1 => ((n + 1) % 3) :: ternDigits fuel ((n + 1) / 3)

/-- Reads a little-endian digit list as a decimal number. -/
def decimalOfDigits : List Nat → Nat
  | [] => 0
  | d :: ds => d + 10 * decimalOfDigits ds

/-- Entry `i` of `get_fast_ternary_lookup(size)`: numpy renders `i` as its
base-3 digit string (`np.base_repr(i, base=3)`) and then re-reads that digit
string as a decimal int32. -/
def ternaryLookup (i : Nat) : Nat := decimalOfDigits (ternDigits i i)

/-- `Scorer.perfect_score`: the last entry (`[-1]`) of the ternary lookup table
of size `3 ** size`. -/
def perfect_score (size : Nat) : Nat := ternaryLookup (3 ^ size - 1)

/-- `Scorer.is_perfect_score`. -/
def is_perfect_score (size score : Nat) : Bool := score == perfect_score size

/-- The per-position feedback digit exactly as the spec (§4.1) words it:
2 at an exact match, otherwise 1 when `already_observed < available_in_solution`
and 0 when not. -/
def specDigit (s g : Word) (i : Nat) : Nat :=
  if isMatch s g i then 2
  else if alreadyObserved s g i < numTimesInSolution s g i then 1 else 0

/-- Insertion step of a comparison sort: place `x` before the first element
`y` with `r x y`. -/
def orderedInsert {α : Type*} (r : α → α → Bool) (x : α) : List α → List α
  | [] => [x]
  | y :: ys => if r x y then x :: y :: ys else y :: orderedInsert r x ys

/-- Comparison sort: embeds Python `sorted` with a comparer (`r a b` meaning
the comparer puts `a` strictly before `b`). -/
def sortByRel {α : Type*} (r : α → α → Bool) : List α → List α
  | [] => []
  | x :: xs => orderedInsert r x (sortByRel r xs)

/-- The ascending list of distinct scores of the candidates against a guess
(`np.unique(scores)` in `Scorer.get_solutions_by_score`). -/
def uniqueScores (solns : List Word) (g : Word) : List Nat :=
  sortByRel (fun a b => decide (a < b)) ((solns.map (fun w => score_word w g)).dedup)

/-- `Scorer.get_solutions_by_score`: one bucket per distinct score, each bucket
the sublist of candidates whose score against the guess equals that key. -/
def get_solutions_by_score (solns : List Word) (g : Word) : List (Nat × List Word) :=
  (uniqueScores solns g).map (fun sc => (sc, solns.filter (fun w => score_word w g == sc)))

/-! ### Guess records and the minimax ordering (solver.py) -/

/-- Lexicographic strict comparison of letter-code lists; embeds Python string
comparison `self.word < other.word` (letter codes are ordered like the
characters they encode). -/
def listLt : List Nat → List Nat → Bool
  | [], [] => false
  | [], _ :: _ => true
  | _ :: _, [] => false
  | a :: as, b :: bs => if a < b then true else if b < a then false else listLt as bs

/-- The statistics a `Guess` record keeps about one candidate guess word. The
Python class also stores a floating-point `entropy` statistic; it is unused by
the minimax ordering and by every claim, and floating point is not modelled. -/
structure Guess where
  word : List Nat
  size_of_largest_bucket : Nat
  number_of_buckets : Nat
  deriving DecidableEq

/-- `Guess.improves_upon`: smaller largest bucket first; then membership of the
word in `common_words`; then more buckets; finally the lexicographically
smaller word. -/
def improves_upon (g1 g2 : Guess) (common : List (List Nat)) : Bool :=
  if g1.size_of_largest_bucket ≠ g2.size_of_largest_bucket then
    decide (g1.size_of_largest_bucket < g2.size_of_largest_bucket)
  else if g1.word ∈ common ∧ g2.word ∉ common then true
  else if g1.word ∉ common ∧ g2.word ∈ common then false
  else if g1.number_of_buckets ≠ g2.number_of_buckets then
    decide (g2.number_of_buckets < g1.number_of_buckets)
  else listLt g1.word g2.word

/-- The membership tier of `improves_upon` as a rank (members of
`common_words` sort before non-members). -/
def memRank (w : List Nat) (common : List (List Nat)) : Nat :=
  if w ∈ common then 0 else 1

/-- `Solver.get_histogram`: the number of candidates per distinct score, keyed
in first-occurrence order of the scores. -/
def get_histogram (solns : List Word) (g : Word) : List (Nat × Nat) :=
  ((solns.map (fun w => score_word w g)).dedup).map
    (fun k => (k, (solns.filter (fun w => score_word w g == k)).length))

/-- `Guess.create`: records the largest bucket size and the number of buckets
of a histogram (Python `max` over the counts; callers guarantee a nonempty
histogram, and the embedding totalizes the empty case with 0). -/
def Guess.create (w : List Nat) (hist : List (Nat × Nat)) : Guess :=
  { word := w
    size_of_largest_bucket := (hist.map (fun e => e.2)).foldr Nat.max 0
    number_of_buckets := hist.length }

/-- `MinimaxSolver.all_guesses`: one Guess record per vocabulary word. -/
def all_guesses (potential_solutions : List Word) (all_words : List Word) : List Guess :=
  all_words.map (fun w => Guess.create w (get_histogram potential_solutions w))

/-- Python `min(..., key=cmp_to_key(cmp))`: keep the current minimum and
replace it exactly when the comparer puts the new item strictly before it. -/
def minBy {α : Type*} (r : α → α → Bool) : List α → Option α
  | [] => none
  | x :: xs => some (xs.foldl (fun m y => if r y m then y else m) x)

/-- Python `max(..., key=cmp_to_key(cmp))`: replace the current maximum
exactly when the comparer does not put the new item strictly before it (on a
tie the replacement carries the same value). -/
def maxBy {α : Type*} (r : α → α → Bool) : List α → Option α
  | [] => none
  | x :: xs => some (xs.foldl (fun m y => if r y m then m else y) x)

/-- `MinimaxSolver.get_best_guess`: the minimum Guess under `improves_upon`
with `common_words` bound to the candidate set. -/
def minimax_get_best_guess (potential_solutions : List Word) (all_words : List Word) :
    Option Guess :=
  minBy (fun a b => improves_upon a b potential_solutions)
    (all_guesses potential_solutions all_words)

/-! ### Deep minimax (DeepMinimaxSolver in solver.py) -/

/-- The candidate guesses `DeepMinimaxSolver.get_best_guess` explores deeper:
`sorted(guesses, key=cmp_func)[:N_BRANCH]` with `N_BRANCH = 5`. -/
def deep_best_guesses (potential_solutions all_words : List Word) : List Guess :=
  (sortByRel (fun a b => improves_upon a b potential_solutions)
    (all_guesses potential_solutions all_words)).take 5

/-- The score buckets of one explored guess sorted by descending candidate
count (`sorted(solns_by_score, key=lambda s: -len(solns_by_score[s]))`). The
source sorts dict keys whose tie order is the unspecified set-iteration
order, so ties keep an arbitrary fixed order here. -/
def deep_worst_outcomes (potential_solutions : List Word) (g : Guess) :
    List (Nat × List Word) :=
  sortByRel (fun e1 e2 : Nat × List Word => decide (e2.2.length < e1.2.length))
    (get_solutions_by_score potential_solutions g.word)

/-- Per explored guess: the inner solver answers each of the 5 largest
buckets, and the worst answer under the base ordering is kept
(`max(nested_best_guesses, key=cmp_func)`). The inner solver is abstracted as
a total function from a candidate bucket to its chosen Guess. -/
def worst_nested_best_guess (inner : List Word → Guess) (potential_solutions : List Word)
    (g : Guess) : Option Guess :=
  maxBy (fun a b => improves_upon a b potential_solutions)
    (((deep_worst_outcomes potential_solutions g).take 5).map (fun e => inner e.2))

/-- The dictionary `nested_worst_best_guess_by_guess` as an association list:
each explored guess paired with its worst nested best guess. -/
def deep_pairs (inner : List Word → Guess) (potential_solutions all_words : List Word) :
    List (Guess × Guess) :=
  (deep_best_guesses potential_solutions all_words).filterMap
    (fun g => (worst_nested_best_guess inner potential_solutions g).map (fun w => (g, w)))

/-- `DeepMinimaxSolver.get_best_guess`: among the explored guesses, return the
one whose worst nested best guess is minimal under the base ordering. -/
def deep_get_best_guess (inner : List Word → Guess)
    (potential_solutions all_words : List Word) : Option Guess :=
  match minBy (fun a b => improves_upon a b potential_solutions)
      ((deep_pairs inner potential_solutions all_words).map (fun p => p.2)) with
  | none => none
  | some best =>
      ((deep_pairs inner potential_solutions all_words).find?
        (fun p => p.2 == best)).map (fun p => p.1)

/-! ### Simulator (simulation.py) -/

/-- The failure modes of the embedded runner: the distinguished
`FailedToFindASolutionError` raised after the iteration cap, and the plain
`KeyError` a missing seed-table entry raises. -/
inductive SimError where
  | failedToFindASolution : SimError
  | keyError : SimError
  deriving DecidableEq

/-- The bucket the run keeps: `histogram[observed_score]` where
`observed_score = score_word(solution, best_guess)`. -/
def bucketOf (avail : List Word) (sol g : Word) : List Word :=
  avail.filter (fun w => score_word w g == score_word sol g)

/-- The turn loop of `Simulator.run`: narrow the candidates to the bucket of
the observed score, return the 1-based turn count when the guess equals the
solution, otherwise ask the solver for the next guess from the narrowed
candidates. The solver is abstracted as the function `next_guess` (the fixed
vocabulary passed alongside it in the source is baked in). -/
def simRunLoop (next_guess : List Word → Word) (sol : Word) :
    Nat → List Word → Word → Nat → Except SimError Nat
  | 0, _, _, _ => .error .failedToFindASolution
  | fuel + 1, avail, g, i =>
      if g = sol then .ok (i + 1)
      else simRunLoop next_guess sol fuel (bucketOf avail sol g)
        (next_guess (bucketOf avail sol g)) (i + 1)

/-- `Simulator.run` with an explicit first guess and `MAX_ITERS = 15`. -/
def simRun (next_guess : List Word → Word) (sol : Word) (avail : List Word) (g0 : Word) :
    Except SimError Nat :=
  simRunLoop next_guess sol 15 avail g0 0

/-- The candidate-set / guess sequence the run walks through: each turn the
candidate set becomes the bucket of the observed score and the guess becomes
the solver's choice on it. -/
def simStateSeq (next_guess : List Word → Word) (sol : Word) (avail : List Word) (g0 : Word) :
    Nat → List Word × Word
  | 0 => (avail, g0)
  | t + 1 =>
      (bucketOf (simStateSeq next_guess sol avail g0 t).1 sol
          (simStateSeq next_guess sol avail g0 t).2,
        next_guess (bucketOf (simStateSeq next_guess sol avail g0 t).1 sol
          (simStateSeq next_guess sol avail g0 t).2))

/-! ### Quordle (Simulator.run_quordle) and seeding (Solver.seed, factory.py) -/

/-- The `to_pop` bookkeeping of `run_quordle`: the loop overwrites `to_pop`
with every index whose solution equals the shared guess, so the last matching
index wins. -/
def lastMatchIdx (g : Word) (sols : List Word) : Option Nat :=
  ((List.range sols.length).filter (fun j => sols.getD j [] == g)).getLast?

/-- One turn's narrowing of every in-play board (solution, its remaining
candidates) against the shared guess. -/
def narrowAll (g : Word) (st : List (Word × List Word)) : List (Word × List Word) :=
  st.map (fun p => (p.1, bucketOf p.2 p.1 g))

/-- The loop of `Simulator.run_quordle`: each turn every in-play board is
scored against the single shared guess (the `reporter.report_score` calls are
collected as one `(solution, guess)` event list per turn) and narrowed; the
last board whose solution equals the guess, if any, is popped; the run ends
with success when no boards remain and errors once the fuel (the iteration
cap) is exhausted. The solver is abstracted as the function from the list of
remaining candidate sets to the next shared guess. -/
def quordleLoop (next_guess : List (List Word) → Word) :
    Nat → Word → List (Word × List Word) →
      Except SimError Unit × List (List (Word × Word))
  | 0, _, _ => (.error .failedToFindASolution, [])
  | fuel + 1, g, st =>
      match lastMatchIdx g (st.map (fun p => p.1)) with
      | some j =>
          if ((narrowAll g st).eraseIdx j).isEmpty then
            (.ok (), [st.map (fun p => (p.1, g))])
          else
            ((quordleLoop next_guess fuel
                (next_guess (((narrowAll g st).eraseIdx j).map (fun p => p.2)))
                ((narrowAll g st).eraseIdx j)).1,
              st.map (fun p => (p.1, g)) ::
                (quordleLoop next_guess fuel
                  (next_guess (((narrowAll g st).eraseIdx j).map (fun p => p.2)))
                  ((narrowAll g st).eraseIdx j)).2)
      | none =>
          ((quordleLoop next_guess fuel
              (next_guess ((narrowAll g st).map (fun p => p.2))) (narrowAll g st)).1,
            st.map (fun p => (p.1, g)) ::
              (quordleLoop next_guess fuel
                (next_guess ((narrowAll g st).map (fun p => p.2))) (narrowAll g st)).2)

/-- `Simulator.run_quordle` with an explicit first guess and `MAX_ITERS = 15`:
every board starts from the common-words candidate list. -/
def run_quordle (next_guess : List (List Word) → Word) (solutions common_words : List Word)
    (g0 : Word) : Except SimError Unit × List (List (Word × Word)) :=
  quordleLoop next_guess 15 g0 (solutions.map (fun s => (s, common_words)))

/-- The seed table `seed_by_size` of `Solver.seed` (the letter-code vectors of
OLEA, RAISE, TAILER, TENAILS, CENTRALS and SECRETION). -/
def seed_by_size : List (Nat × Word) :=
  [(4, [15, 12, 5, 1]),
   (5, [18, 1, 9, 19, 5]),
   (6, [20, 1, 9, 12, 5, 18]),
   (7, [20, 5, 14, 1, 9, 12, 19]),
   (8, [3, 5, 14, 20, 18, 1, 12, 19]),
   (9, [19, 5, 3, 18, 5, 20, 9, 15, 14])]

/-- `Solver.seed`: the dict lookup `seed_by_size[size]`; a missing entry
raises a plain `KeyError`. -/
def seed (size : Nat) : Except SimError Word :=
  match seed_by_size.lookup size with
  | some w => .ok w
  | none => .error .keyError

/-- `Simulator.run` including its seeding line
`best_guess = first_guess or self.solver.seed(all_words.word_length)`: with no
first guess the seed lookup runs at the start of the run, before the turn
loop, and its `KeyError` propagates before any scoring happens. -/
def simRunSeeded (next_guess : List Word → Word) (sol : Word) (avail : List Word)
    (size : Nat) (first_guess : Option Word) : Except SimError Nat :=
  match first_guess with
  | some g => simRun next_guess sol avail g
  | none =>
      match seed size with
      | .ok g => simRun next_guess sol avail g
      | .error e => .error e

/-- The solver-family selector of factory.py. -/
inductive SolverType where
  | minimax : SolverType
  | entropy : SolverType
  deriving DecidableEq

/-- Modelled from the spec: `load_dictionary` (words.py is not under src/) is
the external word-list collaborator supplying the vocabulary and the
candidate-solution series for a requested length, here passed in as data.
`create_simulator` (factory.py) wires scorer, histogram builder, solver chain
and reporter; it performs no seed-table lookup, so construction succeeds for
any requested size. -/
def create_simulator (size : Nat) (vocab common_words : List Word)
    (solver_type : SolverType) (depth : Nat) :
    Except SimError (Nat × List Word × List Word × SolverType × Nat) :=
  .ok (size, vocab, common_words, solver_type, depth)

/-! ### The retained reference scorer (score_word_slow in scoring.py) -/

/-- numpy boolean-mask selection `l[mask]`. -/
def maskFilter {α : Type*} (mask : List Bool) (l : List α) : List α :=
  ((mask.zip l).filter (fun p => p.1)).map (fun p => p.2)

/-- The indices at which a boolean mask is true, in increasing order. -/
def truePositions : List Bool → List Nat
  | [] => []
  | b :: m =>
      if b then 0 :: (truePositions m).map (fun p => p + 1)
      else (truePositions m).map (fun p => p + 1)

/-- `score_word_slow`: the retained readable reference implementation. Exact
matches contribute `powers[matches].sum() * 2` with the hard-coded length-5
powers `3 ** (arange(5, 0, -1) - 1)`; the remaining positions are compressed
into the unmatched subarrays, and compressed position `i` contributes its
power exactly when the letter was seen fewer times in the earlier unmatched
guess prefix than it occurs in the unmatched solution. -/
def score_word_slow (s g : Word) : Nat :=
  2 * (maskFilter (wordMatches s g) [81, 27, 9, 3, 1]).sum
  + ((List.range
        (maskFilter ((wordMatches s g).map (fun b => !b)) [81, 27, 9, 3, 1]).length).map
      (fun i =>
        if ((maskFilter ((wordMatches s g).map (fun b => !b)) g).take i).countP
              (fun x => x == (maskFilter ((wordMatches s g).map (fun b => !b)) g).getD i 0)
            < (maskFilter ((wordMatches s g).map (fun b => !b)) s).countP
              (fun x => x == (maskFilter ((wordMatches s g).map (fun b => !b)) g).getD i 0)
        then (maskFilter ((wordMatches s g).map (fun b => !b)) [81, 27, 9, 3, 1]).getD i 0
        else 0)).sum

lemma sum_filter_split (l : List Nat) (p : Nat → Bool) (f h : Nat → Nat) :
    ((l.filter p).map f).sum + ((l.filter (fun x => !p x)).map h).sum
      = (l.map (fun x => if p x then f x else h x)).sum := by
  induction l with
  | nil => simp
  | cons x l ih =>
    by_cases hp : p x <;> simp [List.filter_cons, hp, ← ih] <;> omega

lemma wordMatches_length (s g : Word) (h : s.length = g.length) :
    (wordMatches s g).length = g.length := by
  simp [wordMatches, h]

/-- Claim C2: `score_word_jit` assigns digit 2 to exact positions; a non-exact
position gets digit 1 iff the number of earlier non-exact guess positions with
the same letter is strictly below the number of non-exact solution positions
with that letter; the score is the base-3 integer with position 0 as the
most-significant digit; and with a single unmatched occurrence in the solution,
a later duplicate non-exact guess position is marked absent while a leftmost
unmatched occurrence is marked present. -/
theorem C2_score_word_digits (s g : Word) (h : s.length = g.length) :
    score_word_jit s g
      = ((List.range g.length).map (fun i => specDigit s g i * posPower g.length i)).sum
    ∧ (∀ i1 i2 : Nat, i1 < i2 → isMatch s g i1 = false → isMatch s g i2 = false →
        g.getD i1 0 = g.getD i2 0 → numTimesInSolution s g i2 = 1 → specDigit s g i2 = 0)
    ∧ (∀ i : Nat, isMatch s g i = false → alreadyObserved s g i = 0 →
        1 ≤ numTimesInSolution s g i → specDigit s g i = 1) := by
  refine ⟨?_, ?_, ?_⟩
  · rw [score_word_jit, wordMatches_length s g h, sum_filter_split]
    congr 1
    apply List.map_congr_left
    intro i _
    by_cases hm : isMatch s g i <;>
      by_cases hlt : alreadyObserved s g i < numTimesInSolution s g i <;>
        simp [specDigit, hm, hlt]
  · intro i1 i2 h12 hm1 hm2 heq hone
    have hmem : i1 ∈ (List.range i2).filter
        (fun j => !isMatch s g j && (g.getD j 0 == g.getD i2 0)) := by
      apply List.mem_filter.mpr
      refine ⟨List.mem_range.mpr h12, ?_⟩
      simp only [Bool.and_eq_true, Bool.not_eq_true', beq_iff_eq]
      exact ⟨hm1, heq⟩
    have hlen : 1 ≤ alreadyObserved s g i2 := by
      have := List.length_pos.mpr (List.ne_nil_of_mem hmem)
      simpa [alreadyObserved] using this
    simp only [specDigit, hm2, Bool.false_eq_true, if_false]
    rw [if_neg]
    omega
  · intro i hm hzero hone
    simp only [specDigit, hm, Bool.false_eq_true, if_false]
    rw [if_pos]
    omega

/-- Witness for C2 at a concrete input: solution SPEED, guess ERASE
(vectors for length-5 words). -/
theorem C2_score_word_digits_witness :
    score_word_jit [19, 16, 5, 5, 4] [5, 18, 1, 19, 5]
      = ((List.range 5).map
          (fun i => specDigit [19, 16, 5, 5, 4] [5, 18, 1, 19, 5] i * posPower 5 i)).sum :=
  (C2_score_word_digits [19, 16, 5, 5, 4] [5, 18, 1, 19, 5] (by decide)).1

/-- Claim C1: the claim asserts `is_perfect_score(score_word(s, g))` holds iff
`s = g`, with `perfect_score = 3^L - 1`; the code disagrees: for the length-5
word RAISE, `score_word(w, w) = 242 = 3^5 - 1`, but `perfect_score` is the
base-3 digit string of `3^5 - 1` re-read as a decimal integer, 22222, so
`is_perfect_score` rejects the self-score. -/
theorem C1_perfect_score_mismatch :
    score_word [18, 1, 9, 19, 5] [18, 1, 9, 19, 5] = 242
    ∧ perfect_score 5 = 22222
    ∧ is_perfect_score 5 (score_word [18, 1, 9, 19, 5] [18, 1, 9, 19, 5]) = false := by
  decide

lemma orderedInsert_perm {α : Type*} (r : α → α → Bool) (x : α) (l : List α) :
    (orderedInsert r x l).Perm (x :: l) := by
  induction l with
  | nil => simp [orderedInsert]
  | cons y ys ih =>
    by_cases hr : r x y
    · simp [orderedInsert, hr]
    · simp only [orderedInsert, hr, if_false]
      exact (ih.cons y).trans (List.Perm.swap x y ys)

lemma sortByRel_perm {α : Type*} (r : α → α → Bool) (l : List α) :
    (sortByRel r l).Perm l := by
  induction l with
  | nil => simp [sortByRel]
  | cons x xs ih =>
    exact (orderedInsert_perm r x (sortByRel r xs)).trans (ih.cons x)

lemma mem_uniqueScores (solns : List Word) (g : Word) (k : Nat) :
    k ∈ uniqueScores solns g ↔ ∃ w ∈ solns, score_word w g = k := by
  rw [uniqueScores, (sortByRel_perm _ _).mem_iff, List.mem_dedup]
  simp [List.mem_map]

lemma nodup_uniqueScores (solns : List Word) (g : Word) :
    (uniqueScores solns g).Nodup :=
  (sortByRel_perm _ _).nodup_iff.mpr (List.nodup_dedup _)

/-- Claim C3: the buckets of `get_solutions_by_score` are a disjoint cover of
the candidate set: a candidate is in some bucket iff it is a candidate, every
bucket member's score is the bucket key, distinct buckets are disjoint, and
each candidate lies in exactly one bucket. -/
theorem C3_partition (solns : List Word) (g : Word) :
    (∀ w : Word, w ∈ solns ↔ ∃ e ∈ get_solutions_by_score solns g, w ∈ e.2)
    ∧ (∀ e ∈ get_solutions_by_score solns g, ∀ w ∈ e.2, score_word w g = e.1)
    ∧ (∀ e1 ∈ get_solutions_by_score solns g, ∀ e2 ∈ get_solutions_by_score solns g,
        e1 ≠ e2 → ∀ w : Word, ¬(w ∈ e1.2 ∧ w ∈ e2.2))
    ∧ (∀ w ∈ solns,
        (get_solutions_by_score solns g).countP (fun e => decide (w ∈ e.2)) = 1) := by
  refine ⟨?_, ?_, ?_, ?_⟩
  · intro w
    constructor
    · intro hw
      refine ⟨(score_word w g, solns.filter (fun w' => score_word w' g == score_word w g)),
        ?_, ?_⟩
      · exact List.mem_map.mpr ⟨score_word w g,
          (mem_uniqueScores solns g _).mpr ⟨w, hw, rfl⟩, rfl⟩
      · simp [List.mem_filter, hw]
    · rintro ⟨e, he, hwe⟩
      obtain ⟨k, -, rfl⟩ := List.mem_map.mp he
      exact (List.mem_filter.mp hwe).1
  · intro e he w hwe
    obtain ⟨k, -, rfl⟩ := List.mem_map.mp he
    simpa using (List.mem_filter.mp hwe).2
  · intro e1 he1 e2 he2 hne w ⟨hw1, hw2⟩
    obtain ⟨k1, -, rfl⟩ := List.mem_map.mp he1
    obtain ⟨k2, -, rfl⟩ := List.mem_map.mp he2
    have h1 : score_word w g = k1 := by simpa using (List.mem_filter.mp hw1).2
    have h2 : score_word w g = k2 := by simpa using (List.mem_filter.mp hw2).2
    exact hne (by rw [← h1, ← h2])
  · intro w hw
    rw [get_solutions_by_score, List.countP_map]
    have hcongr : (uniqueScores solns g).countP
        ((fun e : Nat × List Word => decide (w ∈ e.2)) ∘
          (fun sc => (sc, solns.filter (fun w' => score_word w' g == sc))))
        = (uniqueScores solns g).countP (· == score_word w g) := by
      apply List.countP_congr
      intro k _
      have hiff : (w ∈ solns.filter (fun w' => score_word w' g == k)) ↔ k = score_word w g := by
        simp only [List.mem_filter, beq_iff_eq]
        exact ⟨fun h => h.2.symm, fun h => ⟨hw, h.symm⟩⟩
      rw [Bool.eq_iff_iff]
      simp [hiff]
    rw [hcongr, ← List.count_eq_countP]
    exact List.count_eq_one_of_mem (nodup_uniqueScores solns g)
      ((mem_uniqueScores solns g _).mpr ⟨w, hw, rfl⟩)

/-- Witness for C3 at a concrete input: candidates of length 1, guess `[1]`;
the candidate `[2]` lies in exactly one bucket. -/
theorem C3_partition_witness :
    (get_solutions_by_score [[1], [2], [3]] [1]).countP (fun e => decide ([2] ∈ e.2)) = 1 :=
  (C3_partition [[1], [2], [3]] [1]).2.2.2 [2] (by decide)

lemma listLt_cons (x y : Nat) (xs ys : List Nat) :
    listLt (x :: xs) (y :: ys)
      = if x < y then true else if y < x then false else listLt xs ys := rfl

lemma listLt_irrefl (l : List Nat) : listLt l l = false := by
  induction l with
  | nil => rfl
  | cons x xs ih => simp [listLt_cons, ih]

lemma listLt_trans {a b c : List Nat} (hab : listLt a b = true) (hbc : listLt b c = true) :
    listLt a c = true := by
  induction a generalizing b c with
  | nil =>
    cases b with
    | nil => simp [listLt] at hab
    | cons y ys =>
      cases c with
      | nil => simp [listLt] at hbc
      | cons z zs => simp [listLt]
  | cons x xs ih =>
    cases b with
    | nil => simp [listLt] at hab
    | cons y ys =>
      cases c with
      | nil => simp [listLt] at hbc
      | cons z zs =>
        rw [listLt_cons] at hab hbc ⊢
        rcases Nat.lt_trichotomy x y with h1 | h1 | h1
        · rcases Nat.lt_trichotomy y z with h2 | h2 | h2
          · simp [Nat.lt_trans h1 h2]
          · subst h2
            simp [h1]
          · rw [if_neg (by omega), if_pos h2] at hbc
            exact absurd hbc (by simp)
        · subst h1
          rw [if_neg (by omega), if_neg (by omega)] at hab
          rcases Nat.lt_trichotomy x z with h2 | h2 | h2
          · simp [h2]
          · subst h2
            rw [if_neg (by omega), if_neg (by omega)] at hbc ⊢
            exact ih hab hbc
          · rw [if_neg (by omega), if_pos h2] at hbc
            exact absurd hbc (by simp)
        · rw [if_neg (by omega), if_pos h1] at hab
          exact absurd hab (by simp)

lemma listLt_connex {a b : List Nat} (h : a ≠ b) :
    listLt a b = true ∨ listLt b a = true := by
  induction a generalizing b with
  | nil =>
    cases b with
    | nil => exact absurd rfl h
    | cons y ys => simp [listLt]
  | cons x xs ih =>
    cases b with
    | nil => simp [listLt]
    | cons y ys =>
      rcases Nat.lt_trichotomy x y with h1 | h1 | h1
      · left
        simp [listLt_cons, h1]
      · subst h1
        have hxs : xs ≠ ys := fun he => h (by rw [he])
        rcases ih hxs with h2 | h2
        · left
          rw [listLt_cons, if_neg (by omega), if_neg (by omega)]
          exact h2
        · right
          rw [listLt_cons, if_neg (by omega), if_neg (by omega)]
          exact h2
      · right
        simp [listLt_cons, h1]

lemma improves_iff (g1 g2 : Guess) (c : List (List Nat)) :
    improves_upon g1 g2 c = true ↔
      (g1.size_of_largest_bucket < g2.size_of_largest_bucket
       ∨ (g1.size_of_largest_bucket = g2.size_of_largest_bucket ∧
          (memRank g1.word c < memRank g2.word c
           ∨ (memRank g1.word c = memRank g2.word c ∧
              (g2.number_of_buckets < g1.number_of_buckets
               ∨ (g1.number_of_buckets = g2.number_of_buckets ∧
                  listLt g1.word g2.word = true)))))) := by
  rw [improves_upon, memRank, memRank]
  by_cases h1 : g1.word ∈ c <;> by_cases h2 : g2.word ∈ c <;>
    split_ifs <;> simp_all

lemma improves_irrefl (g : Guess) (c : List (List Nat)) :
    improves_upon g g c = false := by
  rw [Bool.eq_false_iff]
  intro h
  rcases (improves_iff g g c).mp h with h' | ⟨-, h' | ⟨-, h' | ⟨-, h'⟩⟩⟩
  · omega
  · omega
  · omega
  · rw [listLt_irrefl] at h'
    cases h'

lemma improves_trans {c : List (List Nat)} {g1 g2 g3 : Guess}
    (h12 : improves_upon g1 g2 c = true) (h23 : improves_upon g2 g3 c = true) :
    improves_upon g1 g3 c = true := by
  rw [improves_iff] at h12 h23 ⊢
  rcases h12 with h12 | ⟨hs12, h12⟩
  · rcases h23 with h23 | ⟨hs23, h23⟩
    · exact Or.inl (by omega)
    · exact Or.inl (by omega)
  · rcases h23 with h23 | ⟨hs23, h23⟩
    · exact Or.inl (by omega)
    · refine Or.inr ⟨by omega, ?_⟩
      rcases h12 with h12 | ⟨hm12, h12⟩
      · rcases h23 with h23 | ⟨hm23, h23⟩
        · exact Or.inl (by omega)
        · exact Or.inl (by omega)
      · rcases h23 with h23 | ⟨hm23, h23⟩
        · exact Or.inl (by omega)
        · refine Or.inr ⟨by omega, ?_⟩
          rcases h12 with h12 | ⟨hb12, h12⟩
          · rcases h23 with h23 | ⟨hb23, h23⟩
            · exact Or.inl (by omega)
            · exact Or.inl (by omega)
          · rcases h23 with h23 | ⟨hb23, h23⟩
            · exact Or.inl (by omega)
            · exact Or.inr ⟨by omega, listLt_trans h12 h23⟩

lemma improves_connex {c : List (List Nat)} {g1 g2 : Guess} (h : g1.word ≠ g2.word) :
    improves_upon g1 g2 c = true ∨ improves_upon g2 g1 c = true := by
  rw [improves_iff, improves_iff]
  by_cases hs : g1.size_of_largest_bucket = g2.size_of_largest_bucket
  · by_cases hm : memRank g1.word c = memRank g2.word c
    · by_cases hb : g1.number_of_buckets = g2.number_of_buckets
      · rcases listLt_connex h with hl | hl
        · exact Or.inl (Or.inr ⟨hs, Or.inr ⟨hm, Or.inr ⟨hb, hl⟩⟩⟩)
        · exact Or.inr (Or.inr ⟨hs.symm, Or.inr ⟨hm.symm, Or.inr ⟨hb.symm, hl⟩⟩⟩)
      · rcases Nat.lt_or_ge g1.number_of_buckets g2.number_of_buckets with hb' | hb'
        · exact Or.inr (Or.inr ⟨hs.symm, Or.inr ⟨hm.symm, Or.inl hb'⟩⟩)
        · exact Or.inl (Or.inr ⟨hs, Or.inr ⟨hm, Or.inl (by omega)⟩⟩)
    · rcases Nat.lt_or_ge (memRank g1.word c) (memRank g2.word c) with hm' | hm'
      · exact Or.inl (Or.inr ⟨hs, Or.inl hm'⟩)
      · exact Or.inr (Or.inr ⟨hs.symm, Or.inl (by omega)⟩)
  · rcases Nat.lt_or_ge g1.size_of_largest_bucket g2.size_of_largest_bucket with hs' | hs'
    · exact Or.inl (Or.inl hs')
    · exact Or.inr (Or.inl (by omega))

lemma improves_asymm {c : List (List Nat)} {g1 g2 : Guess}
    (h : improves_upon g1 g2 c = true) : improves_upon g2 g1 c = false := by
  rw [Bool.eq_false_iff]
  intro h'
  have := improves_trans h h'
  rw [improves_irrefl] at this
  cases this

lemma improves_trichotomy (c : List (List Nat)) (g1 g2 : Guess) :
    improves_upon g1 g2 c = true ∨ improves_upon g2 g1 c = true ∨ g1 = g2 := by
  by_cases hw : g1.word = g2.word
  · by_cases hs : g1.size_of_largest_bucket = g2.size_of_largest_bucket
    · by_cases hb : g1.number_of_buckets = g2.number_of_buckets
      · refine Or.inr (Or.inr ?_)
        cases g1
        cases g2
        simp_all
      · rw [improves_iff, improves_iff]
        rcases Nat.lt_or_ge g1.number_of_buckets g2.number_of_buckets with hb' | hb'
        · exact Or.inr (Or.inl (Or.inr ⟨hs.symm, Or.inr ⟨by rw [hw], Or.inl hb'⟩⟩))
        · exact Or.inl (Or.inr ⟨hs, Or.inr ⟨by rw [hw], Or.inl (by omega)⟩⟩)
    · rw [improves_iff, improves_iff]
      rcases Nat.lt_or_ge g1.size_of_largest_bucket g2.size_of_largest_bucket with hs' | hs'
      · exact Or.inl (Or.inl hs')
      · exact Or.inr (Or.inl (Or.inl (by omega)))
  · rcases improves_connex (c := c) hw with h | h
    · exact Or.inl h
    · exact Or.inr (Or.inl h)

lemma improves_weak {c : List (List Nat)} {g1 g2 g3 : Guess}
    (h : improves_upon g1 g3 c = true) :
    improves_upon g1 g2 c = true ∨ improves_upon g2 g3 c = true := by
  rcases improves_trichotomy c g1 g2 with h' | h' | h'
  · exact Or.inl h'
  · exact Or.inr (improves_trans h' h)
  · subst h'
    exact Or.inr h

/-- Claim C4: `improves_upon` is a strict total order on Guess records with
distinct words: it is transitive and irreflexive, and for two records with
distinct words exactly one direction holds. -/
theorem C4_improves_upon_strict_total_order (c : List (List Nat)) (g1 g2 g3 : Guess) :
    (improves_upon g1 g2 c = true → improves_upon g2 g3 c = true →
      improves_upon g1 g3 c = true)
    ∧ improves_upon g1 g1 c = false
    ∧ (g1.word ≠ g2.word →
        (improves_upon g1 g2 c = true ↔ improves_upon g2 g1 c = false)) := by
  refine ⟨fun h h' => improves_trans h h', improves_irrefl g1 c, fun hw => ⟨?_, ?_⟩⟩
  · exact improves_asymm
  · intro h
    rcases improves_connex (c := c) hw with h' | h'
    · exact h'
    · rw [h'] at h
      cases h

/-- Witness for C4 at concrete records: transitivity fires on a chain of three
lexicographically ordered words, and the self-comparison is rejected. -/
theorem C4_improves_upon_witness :
    improves_upon ⟨[1], 1, 1⟩ ⟨[3], 1, 1⟩ [] = true
    ∧ improves_upon ⟨[2], 1, 1⟩ ⟨[2], 1, 1⟩ [] = false
    ∧ improves_upon ⟨[1], 1, 1⟩ ⟨[2], 1, 1⟩ [] = true :=
  ⟨(C4_improves_upon_strict_total_order [] ⟨[1], 1, 1⟩ ⟨[2], 1, 1⟩ ⟨[3], 1, 1⟩).1
      (by decide) (by decide),
   (C4_improves_upon_strict_total_order [] ⟨[2], 1, 1⟩ ⟨[2], 1, 1⟩ ⟨[2], 1, 1⟩).2.1,
   ((C4_improves_upon_strict_total_order [] ⟨[1], 1, 1⟩ ⟨[2], 1, 1⟩ ⟨[2], 1, 1⟩).2.2
      (by decide)).mpr (by decide)⟩


section MinMaxFold

variable {α : Type*} {r : α → α → Bool}

lemma foldl_min_spec
    (htrans : ∀ a b c : α, r a b = true → r b c = true → r a c = true)
    (hweak : ∀ a b c : α, r a c = true → r a b = true ∨ r b c = true)
    (hirr : ∀ a : α, r a a = false) :
    ∀ (l : List α) (acc : α),
      l.foldl (fun m y => if r y m then y else m) acc ∈ acc :: l
      ∧ ∀ x ∈ acc :: l, r x (l.foldl (fun m y => if r y m then y else m) acc) = false := by
  intro l
  induction l with
  | nil =>
    intro acc
    refine ⟨by simp, ?_⟩
    intro x hx
    rw [List.mem_singleton.mp hx]
    exact hirr acc
  | cons y l ih =>
    intro acc
    by_cases hr : r y acc = true
    · obtain ⟨hmem, hall⟩ := ih y
      rw [List.foldl_cons, if_pos hr]
      refine ⟨?_, ?_⟩
      · rcases List.mem_cons.mp hmem with h | h
        · rw [h]
          exact List.mem_cons_of_mem _ (List.mem_cons_self y l)
        · exact List.mem_cons_of_mem _ (List.mem_cons_of_mem _ h)
      · intro x hx
        rcases List.mem_cons.mp hx with rfl | hx'
        · rw [Bool.eq_false_iff]
          intro hacc
          have hy := hall y (List.mem_cons_self y l)
          rw [htrans _ _ _ hr hacc] at hy
          cases hy
        · exact hall x hx'
    · obtain ⟨hmem, hall⟩ := ih acc
      rw [List.foldl_cons, if_neg (by simp_all)]
      refine ⟨?_, ?_⟩
      · rcases List.mem_cons.mp hmem with h | h
        · rw [h]
          exact List.mem_cons_self acc (y :: l)
        · exact List.mem_cons_of_mem _ (List.mem_cons_of_mem _ h)
      · intro x hx
        rcases List.mem_cons.mp hx with rfl | hx'
        · exact hall x (List.mem_cons_self x l)
        · rcases List.mem_cons.mp hx' with rfl | hx''
          · rw [Bool.eq_false_iff]
            intro hres
            rcases hweak _ acc _ hres with h' | h'
            · exact absurd h' hr
            · have := hall acc (List.mem_cons_self acc l)
              rw [h'] at this
              cases this
          · exact hall x (List.mem_cons_of_mem _ hx'')

lemma minBy_spec
    (htrans : ∀ a b c : α, r a b = true → r b c = true → r a c = true)
    (hweak : ∀ a b c : α, r a c = true → r a b = true ∨ r b c = true)
    (hirr : ∀ a : α, r a a = false)
    (l : List α) (hl : l ≠ []) :
    ∃ res, minBy r l = some res ∧ res ∈ l ∧ ∀ x ∈ l, r x res = false := by
  cases l with
  | nil => exact absurd rfl hl
  | cons x xs =>
    obtain ⟨hmem, hall⟩ := foldl_min_spec htrans hweak hirr xs x
    exact ⟨_, rfl, hmem, hall⟩

lemma foldl_max_spec
    (htrans : ∀ a b c : α, r a b = true → r b c = true → r a c = true)
    (hweak : ∀ a b c : α, r a c = true → r a b = true ∨ r b c = true)
    (hirr : ∀ a : α, r a a = false) :
    ∀ (l : List α) (acc : α),
      l.foldl (fun m y => if r y m then m else y) acc ∈ acc :: l
      ∧ ∀ x ∈ acc :: l, r (l.foldl (fun m y => if r y m then m else y) acc) x = false := by
  intro l
  induction l with
  | nil =>
    intro acc
    refine ⟨by simp, ?_⟩
    intro x hx
    rw [List.mem_singleton.mp hx]
    exact hirr _
  | cons y l ih =>
    intro acc
    by_cases hr : r y acc = true
    · obtain ⟨hmem, hall⟩ := ih acc
      rw [List.foldl_cons, if_pos hr]
      refine ⟨?_, ?_⟩
      · rcases List.mem_cons.mp hmem with h | h
        · rw [h]
          exact List.mem_cons_self acc (y :: l)
        · exact List.mem_cons_of_mem _ (List.mem_cons_of_mem _ h)
      · intro x hx
        rcases List.mem_cons.mp hx with rfl | hx'
        · exact hall x (List.mem_cons_self x l)
        · rcases List.mem_cons.mp hx' with rfl | hx''
          · rw [Bool.eq_false_iff]
            intro hres
            rcases hweak _ acc _ hres with h' | h'
            · have := hall acc (List.mem_cons_self acc l)
              rw [h'] at this
              cases this
            · have := htrans _ _ _ hr h'
              rw [hirr] at this
              cases this
          · exact hall x (List.mem_cons_of_mem _ hx'')
    · obtain ⟨hmem, hall⟩ := ih y
      rw [List.foldl_cons, if_neg (by simp_all)]
      refine ⟨?_, ?_⟩
      · rcases List.mem_cons.mp hmem with h | h
        · rw [h]
          exact List.mem_cons_of_mem _ (List.mem_cons_self y l)
        · exact List.mem_cons_of_mem _ (List.mem_cons_of_mem _ h)
      · intro x hx
        rcases List.mem_cons.mp hx with rfl | hx'
        · rw [Bool.eq_false_iff]
          intro hres
          rcases hweak _ y _ hres with h' | h'
          · have := hall y (List.mem_cons_self y l)
            rw [h'] at this
            cases this
          · exact absurd h' hr
        · exact hall x hx'

lemma maxBy_spec
    (htrans : ∀ a b c : α, r a b = true → r b c = true → r a c = true)
    (hweak : ∀ a b c : α, r a c = true → r a b = true ∨ r b c = true)
    (hirr : ∀ a : α, r a a = false)
    (l : List α) (hl : l ≠ []) :
    ∃ res, maxBy r l = some res ∧ res ∈ l ∧ ∀ x ∈ l, r res x = false := by
  cases l with
  | nil => exact absurd rfl hl
  | cons x xs =>
    obtain ⟨hmem, hall⟩ := foldl_max_spec htrans hweak hirr xs x
    exact ⟨_, rfl, hmem, hall⟩

end MinMaxFold

/-- Claim C5: `MinimaxSolver.get_best_guess` builds one Guess per vocabulary
word from its histogram against the candidates and returns a minimal Guess
under `improves_upon` with `common_words` equal to the candidate set: no Guess
built from a vocabulary word improves upon the returned one. -/
theorem C5_minimax_best_guess (potential_solutions all_words : List Word)
    (h : all_words ≠ []) :
    ∃ res, minimax_get_best_guess potential_solutions all_words = some res
      ∧ res ∈ all_guesses potential_solutions all_words
      ∧ ∀ w ∈ all_words,
          improves_upon (Guess.create w (get_histogram potential_solutions w)) res
            potential_solutions = false := by
  have hne : all_guesses potential_solutions all_words ≠ [] := by
    simp [all_guesses, h]
  obtain ⟨res, hmin, hmem, hall⟩ :=
    minBy_spec (r := fun a b => improves_upon a b potential_solutions)
      (fun _ _ _ h h' => improves_trans h h') (fun a b c h => @improves_weak potential_solutions a b c h)
      (fun a => improves_irrefl a potential_solutions) _ hne
  exact ⟨res, hmin, hmem, fun w hw => hall _ (List.mem_map.mpr ⟨w, hw, rfl⟩)⟩

/-- Witness for C5: vocabulary and candidates both containing the length-1
words `[1]` and `[2]`; the minimum exists and is dominated by no vocabulary word. -/
theorem C5_minimax_best_guess_witness :
    ∃ res, minimax_get_best_guess [[1], [2]] [[1], [2]] = some res
      ∧ res ∈ all_guesses [[1], [2]] [[1], [2]]
      ∧ ∀ w ∈ [[1], [2]],
          improves_upon (Guess.create w (get_histogram [[1], [2]] w)) res [[1], [2]] = false :=
  C5_minimax_best_guess [[1], [2]] [[1], [2]] (by decide)

lemma simStateSeq_shift (ng : List Word → Word) (sol : Word) (avail : List Word) (g : Word) :
    ∀ t, simStateSeq ng sol avail g (t + 1)
      = simStateSeq ng sol (bucketOf avail sol g) (ng (bucketOf avail sol g)) t := by
  intro t
  induction t with
  | zero => rfl
  | succ t ih => rw [simStateSeq, ih, simStateSeq]

lemma simRunLoop_ok (ng : List Word → Word) (sol : Word) :
    ∀ (t fuel : Nat) (avail : List Word) (g : Word) (i : Nat), t < fuel →
      (simStateSeq ng sol avail g t).2 = sol →
      (∀ t' < t, (simStateSeq ng sol avail g t').2 ≠ sol) →
      simRunLoop ng sol fuel avail g i = .ok (i + t + 1) := by
  intro t
  induction t with
  | zero =>
    intro fuel avail g i hfuel hg _
    cases fuel with
    | zero => omega
    | succ f =>
      have hg' : g = sol := hg
      rw [simRunLoop, if_pos hg']
  | succ t ih =>
    intro fuel avail g i hfuel hg hne
    cases fuel with
    | zero => omega
    | succ f =>
      have hg0 : g ≠ sol := hne 0 (Nat.succ_pos t)
      rw [simRunLoop, if_neg hg0]
      have hres := ih f (bucketOf avail sol g) (ng (bucketOf avail sol g)) (i + 1)
        (by omega)
        (by rw [← simStateSeq_shift]; exact hg)
        (fun t' ht' => by rw [← simStateSeq_shift]; exact hne (t' + 1) (by omega))
      rw [hres]
      congr 1
      omega

lemma simRunLoop_error (ng : List Word → Word) (sol : Word) :
    ∀ (fuel : Nat) (avail : List Word) (g : Word) (i : Nat),
      (∀ t < fuel, (simStateSeq ng sol avail g t).2 ≠ sol) →
      simRunLoop ng sol fuel avail g i = .error .failedToFindASolution := by
  intro fuel
  induction fuel with
  | zero => intro avail g i _; rfl
  | succ f ih =>
    intro avail g i hne
    have hg0 : g ≠ sol := hne 0 (Nat.succ_pos f)
    rw [simRunLoop, if_neg hg0]
    exact ih _ _ _ (fun t ht => by
      rw [← simStateSeq_shift]
      exact hne (t + 1) (by omega))

lemma lookup_map_keys (keys : List Nat) (f : Nat → List Word) (k : Nat) (hk : k ∈ keys) :
    (keys.map (fun k' => (k', f k'))).lookup k = some (f k) := by
  induction keys with
  | nil => cases hk
  | cons k' ks ih =>
    rcases List.mem_cons.mp hk with rfl | hk'
    · simp [List.lookup]
    · by_cases he : k = k'
      · subst he
        simp [List.lookup]
      · simp only [List.map_cons, List.lookup, beq_eq_false_iff_ne.mpr he]
        exact ih hk'

/-- Claim C6: `Simulator.run` returns the 1-based turn count when the guess
first equals the solution within 15 turns, narrows the candidate set each turn
to exactly the bucket of the observed score in the partition, and raises the
distinguished `FailedToFindASolutionError` when 15 turns pass without the
guess equalling the solution. -/
theorem C6_simulator_run (ng : List Word → Word) (sol : Word) (avail : List Word) (g0 : Word) :
    (∀ t, t < 15 → (simStateSeq ng sol avail g0 t).2 = sol →
      (∀ t' < t, (simStateSeq ng sol avail g0 t').2 ≠ sol) →
      simRun ng sol avail g0 = .ok (t + 1))
    ∧ ((∀ t < 15, (simStateSeq ng sol avail g0 t).2 ≠ sol) →
        simRun ng sol avail g0 = .error .failedToFindASolution)
    ∧ (∀ t, (simStateSeq ng sol avail g0 (t + 1)).1
        = bucketOf (simStateSeq ng sol avail g0 t).1 sol (simStateSeq ng sol avail g0 t).2)
    ∧ (∀ t, sol ∈ (simStateSeq ng sol avail g0 t).1 →
        (get_solutions_by_score (simStateSeq ng sol avail g0 t).1
            (simStateSeq ng sol avail g0 t).2).lookup
          (score_word sol (simStateSeq ng sol avail g0 t).2)
        = some (simStateSeq ng sol avail g0 (t + 1)).1) := by
  refine ⟨?_, ?_, ?_, ?_⟩
  · intro t ht hg hne
    have := simRunLoop_ok ng sol t 15 avail g0 0 ht hg hne
    simpa [simRun] using this
  · intro hne
    exact simRunLoop_error ng sol 15 avail g0 0 hne
  · intro t
    rw [simStateSeq]
  · intro t hsol
    rw [get_solutions_by_score, lookup_map_keys _ _ _
      ((mem_uniqueScores _ _ _).mpr ⟨sol, hsol, rfl⟩)]
    rfl

/-- Witness for C6: a run whose first guess already equals the solution
returns turn count 1. -/
theorem C6_simulator_run_witness :
    simRun (fun _ => [1]) [1] [[1], [2]] [1] = .ok 1 :=
  (C6_simulator_run (fun _ => [1]) [1] [[1], [2]] [1]).1 0 (by omega) (by decide)
    (fun t' ht' => absurd ht' (by omega))

section SortPairwise

variable {α : Type*} {r : α → α → Bool}

lemma orderedInsert_pairwise
    (htrans : ∀ a b c : α, r a b = true → r b c = true → r a c = true)
    (hasymm : ∀ a b : α, r a b = true → r b a = false)
    (x : α) (l : List α) (hl : l.Pairwise (fun a b => r b a = false)) :
    (orderedInsert r x l).Pairwise (fun a b => r b a = false) := by
  induction l with
  | nil => simp [orderedInsert]
  | cons y ys ih =>
    obtain ⟨hy, hys⟩ := List.pairwise_cons.mp hl
    by_cases hr : r x y = true
    · rw [orderedInsert, if_pos hr]
      refine List.pairwise_cons.mpr ⟨?_, hl⟩
      intro z hz
      rcases List.mem_cons.mp hz with rfl | hz'
      · exact hasymm x z hr
      · rw [Bool.eq_false_iff]
        intro hzx
        have := htrans z x y hzx hr
        rw [hy z hz'] at this
        cases this
    · rw [orderedInsert, if_neg hr]
      refine List.pairwise_cons.mpr ⟨?_, ih hys⟩
      intro z hz
      have hzmem : z ∈ x :: ys := (orderedInsert_perm r x ys).mem_iff.mp hz
      rcases List.mem_cons.mp hzmem with rfl | hz'
      · exact Bool.eq_false_iff.mpr hr
      · exact hy z hz'

lemma sortByRel_pairwise
    (htrans : ∀ a b c : α, r a b = true → r b c = true → r a c = true)
    (hasymm : ∀ a b : α, r a b = true → r b a = false)
    (l : List α) :
    (sortByRel r l).Pairwise (fun a b => r b a = false) := by
  induction l with
  | nil => simp [sortByRel]
  | cons x xs ih => exact orderedInsert_pairwise htrans hasymm x _ ih

lemma sortByRel_take_drop
    (htrans : ∀ a b c : α, r a b = true → r b c = true → r a c = true)
    (hasymm : ∀ a b : α, r a b = true → r b a = false)
    (l : List α) (n : Nat) :
    ∀ a ∈ (sortByRel r l).take n, ∀ b ∈ (sortByRel r l).drop n, r b a = false := by
  have hp : ((sortByRel r l).take n ++ (sortByRel r l).drop n).Pairwise
      (fun a b => r b a = false) := by
    rw [List.take_append_drop]
    exact sortByRel_pairwise htrans hasymm l
  exact fun a ha b hb => (List.pairwise_append.mp hp).2.2 a ha b hb

end SortPairwise

lemma uniqueScores_ne_nil {potential_solutions : List Word} (hp : potential_solutions ≠ [])
    (w : Word) : uniqueScores potential_solutions w ≠ [] := by
  obtain ⟨p0, hp0⟩ := List.exists_mem_of_ne_nil _ hp
  exact List.ne_nil_of_mem ((mem_uniqueScores _ _ _).mpr ⟨p0, hp0, rfl⟩)

lemma gsbs_ne_nil {potential_solutions : List Word} (hp : potential_solutions ≠ [])
    (w : Word) : get_solutions_by_score potential_solutions w ≠ [] := by
  rw [get_solutions_by_score]
  simpa using uniqueScores_ne_nil hp w

lemma sortByRel_ne_nil {α : Type*} (r : α → α → Bool) {l : List α} (h : l ≠ []) :
    sortByRel r l ≠ [] := by
  intro hnil
  apply h
  have hlen := (sortByRel_perm r l).length_eq
  rw [hnil] at hlen
  exact List.length_eq_zero.mp hlen.symm

lemma take5_ne_nil {α : Type*} {l : List α} (h : l ≠ []) : l.take 5 ≠ [] := by
  cases l with
  | nil => exact absurd rfl h
  | cons x xs => simp [List.take]

lemma worst_nested_some (inner : List Word → Guess) {potential_solutions : List Word}
    (hp : potential_solutions ≠ []) (g : Guess) :
    ∃ wg, worst_nested_best_guess inner potential_solutions g = some wg
      ∧ ∀ e ∈ (deep_worst_outcomes potential_solutions g).take 5,
          improves_upon wg (inner e.2) potential_solutions = false := by
  have h2 : deep_worst_outcomes potential_solutions g ≠ [] :=
    sortByRel_ne_nil _ (gsbs_ne_nil hp g.word)
  have h3 : ((deep_worst_outcomes potential_solutions g).take 5).map
      (fun e => inner e.2) ≠ [] := by
    simpa using take5_ne_nil h2
  obtain ⟨wg, hmax, hmem, hall⟩ :=
    maxBy_spec (r := fun a b => improves_upon a b potential_solutions)
      (fun _ _ _ h h' => improves_trans h h') (fun a b c h => @improves_weak potential_solutions a b c h)
      (fun a => improves_irrefl a potential_solutions) _ h3
  exact ⟨wg, hmax, fun e he => hall _ (List.mem_map.mpr ⟨e, he, rfl⟩)⟩

/-- Claim C7: `DeepMinimaxSolver.get_best_guess` keeps the top 5 vocabulary
guesses under the base ordering (nothing dropped improves upon anything kept),
keeps per guess the 5 score buckets with the largest candidate counts (every
dropped bucket is no larger than every kept one), takes per kept guess the
worst inner-solver answer over the kept buckets under the base ordering, and
returns a kept guess whose worst nested best guess is minimal under the base
ordering. -/
theorem C7_deep_minimax_best_guess (inner : List Word → Guess)
    (potential_solutions all_words : List Word)
    (hp : potential_solutions ≠ []) (hv : all_words ≠ []) :
    ∃ res wres,
      deep_get_best_guess inner potential_solutions all_words = some res
      ∧ res ∈ deep_best_guesses potential_solutions all_words
      ∧ (∀ k ∈ deep_best_guesses potential_solutions all_words,
          ∀ d ∈ (sortByRel (fun a b => improves_upon a b potential_solutions)
              (all_guesses potential_solutions all_words)).drop 5,
            improves_upon d k potential_solutions = false)
      ∧ (∀ g ∈ deep_best_guesses potential_solutions all_words,
          ∀ e1 ∈ (deep_worst_outcomes potential_solutions g).take 5,
          ∀ e2 ∈ (deep_worst_outcomes potential_solutions g).drop 5,
            e2.2.length ≤ e1.2.length)
      ∧ (∀ g ∈ deep_best_guesses potential_solutions all_words,
          ∃ wg, worst_nested_best_guess inner potential_solutions g = some wg
            ∧ ∀ e ∈ (deep_worst_outcomes potential_solutions g).take 5,
                improves_upon wg (inner e.2) potential_solutions = false)
      ∧ worst_nested_best_guess inner potential_solutions res = some wres
      ∧ (∀ g ∈ deep_best_guesses potential_solutions all_words,
          ∀ wg, worst_nested_best_guess inner potential_solutions g = some wg →
            improves_upon wg wres potential_solutions = false) := by
  have htrans : ∀ a b c : Guess, improves_upon a b potential_solutions = true →
      improves_upon b c potential_solutions = true →
      improves_upon a c potential_solutions = true :=
    fun _ _ _ h h' => improves_trans h h'
  have hweak' : ∀ a b c : Guess, improves_upon a c potential_solutions = true →
      improves_upon a b potential_solutions = true
      ∨ improves_upon b c potential_solutions = true :=
    fun a b c h => @improves_weak potential_solutions a b c h
  have hirr : ∀ a : Guess, improves_upon a a potential_solutions = false :=
    fun a => improves_irrefl a potential_solutions
  have hasymm : ∀ a b : Guess, improves_upon a b potential_solutions = true →
      improves_upon b a potential_solutions = false :=
    fun _ _ h => improves_asymm h
  have hb5 : deep_best_guesses potential_solutions all_words ≠ [] := by
    apply take5_ne_nil
    apply sortByRel_ne_nil
    simp [all_guesses, hv]
  obtain ⟨g0, hg0⟩ := List.exists_mem_of_ne_nil _ hb5
  obtain ⟨w0, hw0, -⟩ := worst_nested_some inner hp g0
  have hpair0 : (g0, w0) ∈ deep_pairs inner potential_solutions all_words :=
    List.mem_filterMap.mpr ⟨g0, hg0, by rw [hw0]; rfl⟩
  have hvals : (deep_pairs inner potential_solutions all_words).map (fun p => p.2) ≠ [] :=
    List.ne_nil_of_mem (List.mem_map.mpr ⟨(g0, w0), hpair0, rfl⟩)
  obtain ⟨best, hminby, hbestmem, hballmin⟩ := minBy_spec htrans hweak' hirr _ hvals
  obtain ⟨pb, hpbmem, hpb2⟩ := List.mem_map.mp hbestmem
  have hfindSome : ((deep_pairs inner potential_solutions all_words).find?
      (fun p => p.2 == best)).isSome :=
    List.find?_isSome.mpr ⟨pb, hpbmem, by simp [hpb2]⟩
  obtain ⟨p', hp'⟩ := Option.isSome_iff_exists.mp hfindSome
  have hp'mem := List.mem_of_find?_eq_some hp'
  have hp'best : p'.2 = best := by
    have := List.find?_some hp'
    simpa using this
  obtain ⟨gres, hgresmem, hgres⟩ := List.mem_filterMap.mp hp'mem
  obtain ⟨wres0, hwres0, heq⟩ := Option.map_eq_some'.mp hgres
  refine ⟨p'.1, p'.2, ?_, ?_, ?_, ?_, ?_, ?_, ?_⟩
  · rw [deep_get_best_guess, hminby]
    show ((deep_pairs inner potential_solutions all_words).find?
      (fun p => p.2 == best)).map (fun p => p.1) = some p'.1
    rw [hp']
    rfl
  · rw [← heq]
    exact hgresmem
  · intro k hk d hd
    exact sortByRel_take_drop htrans hasymm _ 5 k hk d hd
  · intro g _ e1 he1 e2 he2
    have := sortByRel_take_drop (r := fun e1 e2 : Nat × List Word =>
        decide (e2.2.length < e1.2.length))
      (fun _ _ _ h h' => by simp at h h' ⊢; omega)
      (fun _ _ h => by simp at h ⊢; omega)
      (get_solutions_by_score potential_solutions g.word) 5 e1 he1 e2 he2
    simpa using this
  · exact fun g _ => worst_nested_some inner hp g
  · rw [← heq]
    exact hwres0
  · intro g hg wg hwg
    have hpairg : (g, wg) ∈ deep_pairs inner potential_solutions all_words :=
      List.mem_filterMap.mpr ⟨g, hg, by rw [hwg]; rfl⟩
    have := hballmin wg (List.mem_map.mpr ⟨(g, wg), hpairg, rfl⟩)
    rw [hp'best]
    exact this

/-- Witness for C7: a concrete deep search over the length-1 words `[1]` and
`[2]` with a constant inner solver produces a best guess. -/
theorem C7_deep_minimax_witness :
    (deep_get_best_guess (fun _ => Guess.mk [1] 1 1) [[1], [2]] [[1], [2]]).isSome = true := by
  obtain ⟨res, wres, h, -⟩ := C7_deep_minimax_best_guess (fun _ => Guess.mk [1] 1 1)
    [[1], [2]] [[1], [2]] (by decide) (by decide)
  rw [h]
  rfl

lemma narrowAll_fst (g : Word) (st : List (Word × List Word)) :
    (narrowAll g st).map (fun p => p.1) = st.map (fun p => p.1) := by
  simp [narrowAll]

lemma map_fst_eraseIdx (l : List (Word × List Word)) (j : Nat) :
    (l.eraseIdx j).map (fun p => p.1) = (l.map (fun p => p.1)).eraseIdx j := by
  rw [List.eraseIdx_eq_take_drop_succ, List.eraseIdx_eq_take_drop_succ,
    List.map_append, List.map_take, List.map_drop]

lemma lastMatchIdx_some_of_mem {g : Word} {sols : List Word} (h : g ∈ sols) :
    ∃ j, lastMatchIdx g sols = some j := by
  obtain ⟨i, hi, hv⟩ := List.mem_iff_getElem.mp h
  have hfil : i ∈ (List.range sols.length).filter (fun j => sols.getD j [] == g) := by
    apply List.mem_filter.mpr
    refine ⟨List.mem_range.mpr hi, ?_⟩
    rw [List.getD_eq_getElem sols [] hi]
    simpa using hv
  exact ⟨_, List.getLast?_eq_getLast_of_ne_nil (List.ne_nil_of_mem hfil)⟩

lemma lastMatchIdx_spec {g : Word} {sols : List Word} {j : Nat}
    (h : lastMatchIdx g sols = some j) : j < sols.length ∧ sols.getD j [] = g := by
  have hmem : j ∈ (List.range sols.length).filter (fun j => sols.getD j [] == g) := by
    obtain ⟨hne, heq⟩ := List.mem_getLast?_eq_getLast (Option.mem_def.mpr h)
    rw [heq]
    exact List.getLast_mem hne
  obtain ⟨h1, h2⟩ := List.mem_filter.mp hmem
  exact ⟨List.mem_range.mp h1, by simpa using h2⟩

lemma not_mem_eraseIdx_of_nodup {l : List Word} {j : Nat} {g : Word}
    (hnd : l.Nodup) (hj : j < l.length) (hval : l.getD j [] = g) :
    g ∉ l.eraseIdx j := by
  have hdecomp : l.take j ++ g :: l.drop (j + 1) = l := by
    rw [← hval, List.getD_eq_getElem l [] hj, ← List.drop_eq_getElem_cons hj,
      List.take_append_drop]
  intro hg
  rw [List.eraseIdx_eq_take_drop_succ] at hg
  have hnd' : (l.take j ++ g :: l.drop (j + 1)).Nodup := by
    rw [hdecomp]
    exact hnd
  obtain ⟨h1, h2, hdisj⟩ := List.nodup_append.mp hnd'
  rcases List.mem_append.mp hg with hg1 | hg2
  · exact hdisj hg1 (List.mem_cons_self g _)
  · exact (List.nodup_cons.mp h2).1 hg2

lemma mem_of_mem_eraseIdx {l : List Word} {j : Nat} {x : Word}
    (h : x ∈ l.eraseIdx j) : x ∈ l :=
  (List.eraseIdx_sublist l j).subset h

lemma mem_eraseIdx_or_eq {l : List Word} {j : Nat} {x : Word}
    (hj : j < l.length) (hx : x ∈ l) : x ∈ l.eraseIdx j ∨ x = l.getD j [] := by
  have hdecomp : l.take j ++ l.getD j [] :: l.drop (j + 1) = l := by
    rw [List.getD_eq_getElem l [] hj, ← List.drop_eq_getElem_cons hj,
      List.take_append_drop]
  rw [← hdecomp] at hx
  rw [List.eraseIdx_eq_take_drop_succ]
  rcases List.mem_append.mp hx with h1 | h2
  · exact Or.inl (List.mem_append.mpr (Or.inl h1))
  · rcases List.mem_cons.mp h2 with heq | h3
    · exact Or.inr heq
    · exact Or.inl (List.mem_append.mpr (Or.inr h3))

lemma quordleLoop_cases (ng : List (List Word) → Word) (fuel : Nat) (g : Word)
    (st : List (Word × List Word)) :
    (∃ j, lastMatchIdx g (st.map (fun p => p.1)) = some j ∧
      ((narrowAll g st).eraseIdx j).isEmpty = true ∧
      quordleLoop ng (fuel + 1) g st = (.ok (), [st.map (fun p => (p.1, g))]))
    ∨ (∃ j, lastMatchIdx g (st.map (fun p => p.1)) = some j ∧
      ((narrowAll g st).eraseIdx j).isEmpty = false ∧
      quordleLoop ng (fuel + 1) g st =
        ((quordleLoop ng fuel (ng (((narrowAll g st).eraseIdx j).map (fun p => p.2)))
            ((narrowAll g st).eraseIdx j)).1,
          st.map (fun p => (p.1, g)) ::
            (quordleLoop ng fuel (ng (((narrowAll g st).eraseIdx j).map (fun p => p.2)))
              ((narrowAll g st).eraseIdx j)).2))
    ∨ (lastMatchIdx g (st.map (fun p => p.1)) = none ∧
      quordleLoop ng (fuel + 1) g st =
        ((quordleLoop ng fuel (ng ((narrowAll g st).map (fun p => p.2)))
            (narrowAll g st)).1,
          st.map (fun p => (p.1, g)) ::
            (quordleLoop ng fuel (ng ((narrowAll g st).map (fun p => p.2)))
              (narrowAll g st)).2)) := by
  cases hm : lastMatchIdx g (st.map (fun p => p.1)) with
  | some j =>
    by_cases hemp : ((narrowAll g st).eraseIdx j).isEmpty = true
    · refine Or.inl ⟨j, rfl, hemp, ?_⟩
      rw [quordleLoop, hm]
      simp [hemp]
    · refine Or.inr (Or.inl ⟨j, rfl, by simpa using hemp, ?_⟩)
      rw [quordleLoop, hm]
      simp [hemp]
  | none =>
    refine Or.inr (Or.inr ⟨rfl, ?_⟩)
    rw [quordleLoop, hm]

lemma quordle_event_sols (ng : List (List Word) → Word) :
    ∀ (fuel : Nat) (g : Word) (st : List (Word × List Word)) (t : Nat)
      (e : Word × Word), e ∈ (quordleLoop ng fuel g st).2.getD t [] →
      e.1 ∈ st.map (fun p => p.1) := by
  intro fuel
  induction fuel with
  | zero =>
    intro g st t e he
    simp [quordleLoop] at he
  | succ fuel ih =>
    intro g st t e he
    have hzero : ∀ he0 : e ∈ st.map (fun p => (p.1, g)), e.1 ∈ st.map (fun p => p.1) := by
      intro he0
      obtain ⟨p, hp, hpe⟩ := List.mem_map.mp he0
      rw [← hpe]
      exact List.mem_map.mpr ⟨p, hp, rfl⟩
    rcases quordleLoop_cases ng fuel g st with ⟨j, hm, hemp, heq⟩ | ⟨j, hm, hemp, heq⟩ |
      ⟨hm, heq⟩
    · rw [heq] at he
      cases t with
      | zero => exact hzero (by simpa using he)
      | succ t => simp at he
    · rw [heq] at he
      cases t with
      | zero => exact hzero (by simpa using he)
      | succ t =>
        rw [List.getD_cons_succ] at he
        have := ih _ _ _ _ he
        rw [map_fst_eraseIdx, narrowAll_fst] at this
        exact mem_of_mem_eraseIdx this
    · rw [heq] at he
      cases t with
      | zero => exact hzero (by simpa using he)
      | succ t =>
        rw [List.getD_cons_succ] at he
        have := ih _ _ _ _ he
        rw [narrowAll_fst] at this
        exact this

lemma quordle_nodup_eraseIdx {g : Word} {st : List (Word × List Word)} {j : Nat}
    (h : (st.map (fun p => p.1)).Nodup) :
    ((((narrowAll g st).eraseIdx j)).map (fun p => p.1)).Nodup := by
  rw [map_fst_eraseIdx, narrowAll_fst]
  exact h.sublist (List.eraseIdx_sublist _ j)

lemma quordle_never_rescored (ng : List (List Word) → Word) :
    ∀ (t fuel : Nat) (g : Word) (st : List (Word × List Word)),
      (st.map (fun p => p.1)).Nodup →
      ∀ (t' : Nat), t < t' → ∀ sol gE,
        (sol, gE) ∈ (quordleLoop ng fuel g st).2.getD t [] → gE = sol →
        ∀ e ∈ (quordleLoop ng fuel g st).2.getD t' [], e.1 ≠ sol := by
  intro t
  induction t with
  | zero =>
    intro fuel g st hnd t' ht' sol gE hmem hgE e he
    cases fuel with
    | zero => simp [quordleLoop] at hmem
    | succ fuel =>
      obtain ⟨t'', rfl⟩ : ∃ t'', t' = t'' + 1 := ⟨t' - 1, by omega⟩
      rcases quordleLoop_cases ng fuel g st with ⟨j, hm, hemp, heq⟩ | ⟨j, hm, hemp, heq⟩ |
        ⟨hm, heq⟩
      · rw [heq] at he
        simp at he
      · rw [heq] at hmem he
        rw [List.getD_cons_zero] at hmem
        obtain ⟨p, hp, hpe⟩ := List.mem_map.mp hmem
        have hg : g = sol := by
          have h2 : g = gE := congrArg Prod.snd hpe
          rw [h2, hgE]
        obtain ⟨hj, hjval⟩ := lastMatchIdx_spec hm
        have hnotin : sol ∉ (((narrowAll g st).eraseIdx j).map (fun p => p.1)) := by
          rw [map_fst_eraseIdx, narrowAll_fst]
          rw [hg] at hjval
          exact not_mem_eraseIdx_of_nodup hnd hj hjval
        rw [List.getD_cons_succ] at he
        intro hesol
        apply hnotin
        rw [← hesol]
        exact quordle_event_sols ng _ _ _ _ _ he
      · rw [heq] at hmem he
        rw [List.getD_cons_zero] at hmem
        obtain ⟨p, hp, hpe⟩ := List.mem_map.mp hmem
        have hg : g = sol := by
          have h2 : g = gE := congrArg Prod.snd hpe
          rw [h2, hgE]
        have hsol : sol ∈ st.map (fun p => p.1) := by
          have h1 : p.1 = sol := congrArg Prod.fst hpe
          rw [← h1]
          exact List.mem_map.mpr ⟨p, hp, rfl⟩
        obtain ⟨j, hj⟩ := lastMatchIdx_some_of_mem (g := g) (by rw [hg]; exact hsol)
        rw [hj] at hm
        cases hm
  | succ t ih =>
    intro fuel g st hnd t' ht' sol gE hmem hgE e he
    cases fuel with
    | zero => simp [quordleLoop] at hmem
    | succ fuel =>
      obtain ⟨t'', rfl⟩ : ∃ t'', t' = t'' + 1 := ⟨t' - 1, by omega⟩
      rcases quordleLoop_cases ng fuel g st with ⟨j, hm, hemp, heq⟩ | ⟨j, hm, hemp, heq⟩ |
        ⟨hm, heq⟩
      · rw [heq] at hmem
        simp at hmem
      · rw [heq] at hmem he
        rw [List.getD_cons_succ] at hmem he
        exact ih fuel _ _ (quordle_nodup_eraseIdx hnd) t'' (by omega) sol gE hmem hgE e he
      · rw [heq] at hmem he
        rw [List.getD_cons_succ] at hmem he
        have hnd' : ((narrowAll g st).map (fun p => p.1)).Nodup := by
          rw [narrowAll_fst]
          exact hnd
        exact ih fuel _ _ hnd' t'' (by omega) sol gE hmem hgE e he

lemma quordle_shared_guess (ng : List (List Word) → Word) :
    ∀ (fuel : Nat) (g : Word) (st : List (Word × List Word)) (t : Nat),
      ∀ e1 ∈ (quordleLoop ng fuel g st).2.getD t [],
      ∀ e2 ∈ (quordleLoop ng fuel g st).2.getD t [], e1.2 = e2.2 := by
  intro fuel
  induction fuel with
  | zero =>
    intro g st t e1 he1
    simp [quordleLoop] at he1
  | succ fuel ih =>
    intro g st t e1 he1 e2 he2
    have hev : ∀ x ∈ st.map (fun p => (p.1, g)), (x : Word × Word).2 = g := by
      intro x hx
      obtain ⟨p, -, hpe⟩ := List.mem_map.mp hx
      rw [← hpe]
    rcases quordleLoop_cases ng fuel g st with ⟨j, hm, hemp, heq⟩ | ⟨j, hm, hemp, heq⟩ |
      ⟨hm, heq⟩
    · rw [heq] at he1 he2
      cases t with
      | zero =>
        rw [List.getD_cons_zero] at he1 he2
        rw [hev e1 he1, hev e2 he2]
      | succ t => simp at he1
    · rw [heq] at he1 he2
      cases t with
      | zero =>
        rw [List.getD_cons_zero] at he1 he2
        rw [hev e1 he1, hev e2 he2]
      | succ t =>
        rw [List.getD_cons_succ] at he1 he2
        exact ih _ _ _ e1 he1 e2 he2
    · rw [heq] at he1 he2
      cases t with
      | zero =>
        rw [List.getD_cons_zero] at he1 he2
        rw [hev e1 he1, hev e2 he2]
      | succ t =>
        rw [List.getD_cons_succ] at he1 he2
        exact ih _ _ _ e1 he1 e2 he2

lemma quordle_ok_all_solved (ng : List (List Word) → Word) :
    ∀ (fuel : Nat) (g : Word) (st : List (Word × List Word)),
      (quordleLoop ng fuel g st).1 = .ok () →
      ∀ sol ∈ st.map (fun p => p.1),
        ∃ t, (sol, sol) ∈ (quordleLoop ng fuel g st).2.getD t [] := by
  intro fuel
  induction fuel with
  | zero =>
    intro g st hok
    rw [quordleLoop] at hok
    cases hok
  | succ fuel ih =>
    intro g st hok sol hsol
    have hzero : sol = g → (sol, sol) ∈ st.map (fun p => (p.1, g)) := by
      intro hg
      obtain ⟨p, hp, hpe⟩ := List.mem_map.mp hsol
      refine List.mem_map.mpr ⟨p, hp, ?_⟩
      rw [hpe, ← hg]
    rcases quordleLoop_cases ng fuel g st with ⟨j, hm, hemp, heq⟩ | ⟨j, hm, hemp, heq⟩ |
      ⟨hm, heq⟩
    · obtain ⟨hj, hjval⟩ := lastMatchIdx_spec hm
      have hjst : j < st.length := by simpa using hj
      have hempty : (narrowAll g st).eraseIdx j = [] := List.isEmpty_iff.mp hemp
      have h1 := List.length_eraseIdx_add_one (l := narrowAll g st) (i := j)
        (by simpa [narrowAll] using hjst)
      rw [hempty] at h1
      simp [narrowAll] at h1
      have hj0 : j = 0 := by omega
      have hsolval : sol = g := by
        cases st with
        | nil => simp at hsol
        | cons p0 rest =>
          cases rest with
          | cons q qs =>
            exfalso
            simp only [List.length_cons] at h1
            omega
          | nil =>
            rw [hj0] at hjval
            simp at hjval hsol
            rw [hsol]
            exact hjval
      refine ⟨0, ?_⟩
      rw [heq, List.getD_cons_zero]
      exact hzero hsolval
    · rw [heq] at hok
      obtain ⟨hj, hjval⟩ := lastMatchIdx_spec hm
      by_cases hg : sol = (st.map (fun p => p.1)).getD j []
      · refine ⟨0, ?_⟩
        rw [heq, List.getD_cons_zero]
        exact hzero (by rw [hg, hjval])
      · have hsol' : sol ∈ (((narrowAll g st).eraseIdx j).map (fun p => p.1)) := by
          rw [map_fst_eraseIdx, narrowAll_fst]
          rcases mem_eraseIdx_or_eq hj hsol with h | h
          · exact h
          · exact absurd h hg
        obtain ⟨t, ht⟩ := ih _ _ hok sol hsol'
        refine ⟨t + 1, ?_⟩
        rw [heq, List.getD_cons_succ]
        exact ht
    · rw [heq] at hok
      have hsol' : sol ∈ (narrowAll g st).map (fun p => p.1) := by
        rw [narrowAll_fst]
        exact hsol
      obtain ⟨t, ht⟩ := ih _ _ hok sol hsol'
      refine ⟨t + 1, ?_⟩
      rw [heq, List.getD_cons_succ]
      exact ht

lemma quordle_error_trace (ng : List (List Word) → Word) :
    ∀ (fuel : Nat) (g : Word) (st : List (Word × List Word)) (e : SimError),
      (quordleLoop ng fuel g st).1 = .error e →
      (quordleLoop ng fuel g st).2.length = fuel ∧ e = .failedToFindASolution := by
  intro fuel
  induction fuel with
  | zero =>
    intro g st e herr
    rw [quordleLoop] at herr
    cases herr
    exact ⟨rfl, rfl⟩
  | succ fuel ih =>
    intro g st e herr
    rcases quordleLoop_cases ng fuel g st with ⟨j, hm, hemp, heq⟩ | ⟨j, hm, hemp, heq⟩ |
      ⟨hm, heq⟩
    · rw [heq] at herr
      cases herr
    · rw [heq] at herr ⊢
      obtain ⟨hlen, he⟩ := ih _ _ _ herr
      refine ⟨?_, he⟩
      simp [hlen]
    · rw [heq] at herr ⊢
      obtain ⟨hlen, he⟩ := ih _ _ _ herr
      refine ⟨?_, he⟩
      simp [hlen]

/-- Claim C8 as frozen is false on the code: with the duplicate solution list
`[[1], [1]]`, shared first guess `[1]` and one-word candidate list, both
boards score perfectly in turn 0 (the event `([1], [1])` has guess equal to
solution), yet the solution `[1]` is scored again in turn 1, because
`run_quordle` pops only the single index stored in `to_pop`. -/
theorem C8_quordle_rescored_counterexample :
    (([1], [1]) ∈ (run_quordle (fun _ => [1]) [[1], [1]] [[1]] [1]).2.getD 0 [])
    ∧ (∃ e ∈ (run_quordle (fun _ => [1]) [[1], [1]] [[1]] [1]).2.getD 1 [], e.1 = [1]) := by
  decide

/-- Claim C8 (amended): each turn every in-play solution is scored against the
single shared guess; when the listed solutions are pairwise distinct, a
solution scored with the perfect feedback (guess equal to solution) in some
turn is never scored in any later turn; a successful run scored every listed
solution perfectly at some turn; and a failed run is the distinguished
exhaustion error raised exactly after the 15-iteration cap. -/
theorem C8_quordle_amended (ng : List (List Word) → Word)
    (solutions common_words : List Word) (g0 : Word) (h : solutions.Nodup) :
    (∀ t, ∀ e1 ∈ (run_quordle ng solutions common_words g0).2.getD t [],
        ∀ e2 ∈ (run_quordle ng solutions common_words g0).2.getD t [], e1.2 = e2.2)
    ∧ (∀ t t', t < t' → ∀ sol gE,
        (sol, gE) ∈ (run_quordle ng solutions common_words g0).2.getD t [] → gE = sol →
        ∀ e ∈ (run_quordle ng solutions common_words g0).2.getD t' [], e.1 ≠ sol)
    ∧ ((run_quordle ng solutions common_words g0).1 = .ok () →
        ∀ sol ∈ solutions, ∃ t,
          (sol, sol) ∈ (run_quordle ng solutions common_words g0).2.getD t [])
    ∧ (∀ e, (run_quordle ng solutions common_words g0).1 = .error e →
        (run_quordle ng solutions common_words g0).2.length = 15
        ∧ e = .failedToFindASolution) := by
  have hfst : (solutions.map (fun s => (s, common_words))).map (fun p => p.1)
      = solutions := by
    rw [List.map_map]
    have hcomp : ((fun (p : Word × List Word) => p.1) ∘ fun s => (s, common_words))
        = fun s : Word => s := rfl
    rw [hcomp, List.map_id']
  refine ⟨?_, ?_, ?_, ?_⟩
  · intro t e1 he1 e2 he2
    exact quordle_shared_guess ng 15 g0 _ t e1 he1 e2 he2
  · intro t t' ht' sol gE hmem hgE e he
    refine quordle_never_rescored ng t 15 g0 _ ?_ t' ht' sol gE hmem hgE e he
    rw [hfst]
    exact h
  · intro hok sol hsol
    exact quordle_ok_all_solved ng 15 g0 _ hok sol (by rw [hfst]; exact hsol)
  · intro e herr
    exact quordle_error_trace ng 15 g0 _ e herr

/-- Witness for the amended C8: a distinct two-solution run that converges;
the second solution is scored perfectly at some turn. -/
theorem C8_quordle_amended_witness :
    ∃ t, ([2], [2]) ∈ (run_quordle (fun _ => [2]) [[1], [2]] [[1], [2]] [1]).2.getD t [] :=
  (C8_quordle_amended (fun _ => [2]) [[1], [2]] [[1], [2]] [1] (by decide)).2.2.1
    rfl [2] (by decide)

/-- Claim C9 as frozen is false on the code: for the unsupported length 10,
simulator construction succeeds (`create_simulator` performs no seed-table
lookup), and the failure only surfaces when a run starts with no explicit
first guess — as a plain `KeyError` from the seed table rather than a
distinguished UnsupportedWordLength error at construction time. -/
theorem C9_seed_not_at_construction :
    create_simulator 10 [List.replicate 10 1] [List.replicate 10 1] SolverType.minimax 1
      = .ok (10, [List.replicate 10 1], [List.replicate 10 1], SolverType.minimax, 1)
    ∧ seed 10 = .error .keyError
    ∧ simRunSeeded (fun _ => List.replicate 10 1) (List.replicate 10 1)
        [List.replicate 10 1] 10 none = .error .keyError :=
  ⟨rfl, rfl, rfl⟩

/-- Claim C9 (amended): for every requested size with no seed-table entry
(anything outside 4..9) the seed lookup fails with the `KeyError`, a run with
no explicit first guess fails with that `KeyError` before its turn loop and
hence before any scoring, and simulator construction never consults the seed
table, succeeding for any size. -/
theorem C9_seed_amended (size : Nat) (hsize : size < 4 ∨ 9 < size) :
    seed size = .error .keyError
    ∧ (∀ (ng : List Word → Word) (sol : Word) (avail : List Word),
        simRunSeeded ng sol avail size none = .error .keyError)
    ∧ (∀ (vocab common_words : List Word) (st : SolverType) (depth : Nat),
        create_simulator size vocab common_words st depth
          = .ok (size, vocab, common_words, st, depth)) := by
  have h4 : (size == 4) = false := by rw [beq_eq_false_iff_ne]; omega
  have h5 : (size == 5) = false := by rw [beq_eq_false_iff_ne]; omega
  have h6 : (size == 6) = false := by rw [beq_eq_false_iff_ne]; omega
  have h7 : (size == 7) = false := by rw [beq_eq_false_iff_ne]; omega
  have h8 : (size == 8) = false := by rw [beq_eq_false_iff_ne]; omega
  have h9 : (size == 9) = false := by rw [beq_eq_false_iff_ne]; omega
  have hseed : seed size = .error .keyError := by
    simp [seed, seed_by_size, List.lookup, h4, h5, h6, h7, h8, h9]
  refine ⟨hseed, ?_, ?_⟩
  · intro ng sol avail
    simp [simRunSeeded, hseed]
  · intro vocab common_words st depth
    rfl

/-- Witness for the amended C9 at the unsupported size 10. -/
theorem C9_seed_amended_witness :
    seed 10 = .error .keyError
    ∧ simRunSeeded (fun _ => []) [] [] 10 none = .error .keyError :=
  ⟨(C9_seed_amended 10 (by omega)).1,
   (C9_seed_amended 10 (by omega)).2.1 (fun _ => []) [] []⟩

lemma range_succ_eq' (n : Nat) :
    List.range (n + 1) = 0 :: (List.range n).map (fun i => i + 1) := by
  rw [List.range_succ_eq_map]

lemma filter_map_succ (p : Nat → Bool) (l : List Nat) :
    (l.map (fun i => i + 1)).filter p
      = (l.filter (fun i => p (i + 1))).map (fun i => i + 1) := by
  induction l with
  | nil => rfl
  | cons x xs ih =>
    simp only [List.map_cons, List.filter_cons]
    by_cases h : p (x + 1)
    · simp [h, ih]
    · simp [h, ih]

lemma truePositions_eq (m : List Bool) :
    truePositions m = (List.range m.length).filter (fun i => m.getD i false) := by
  induction m with
  | nil => rfl
  | cons b m ih =>
    rw [List.length_cons, range_succ_eq', List.filter_cons, filter_map_succ]
    have hpred : (List.filter (fun i => (b :: m).getD (i + 1) false) (List.range m.length))
        = List.filter (fun i => m.getD i false) (List.range m.length) :=
      List.filter_congr (fun i _ => rfl)
    cases b with
    | false =>
      rw [truePositions, if_neg (by simp), ih, hpred]
      rw [if_neg (by simp [List.getD_cons_zero])]
    | true =>
      rw [truePositions, if_pos rfl, ih, hpred]
      rw [if_pos (by simp [List.getD_cons_zero])]

lemma truePositions_lt {m : List Bool} {p : Nat} (h : p ∈ truePositions m) :
    p < m.length := by
  rw [truePositions_eq] at h
  exact List.mem_range.mp (List.mem_filter.mp h).1

lemma truePositions_sorted (m : List Bool) : (truePositions m).Pairwise (· < ·) := by
  rw [truePositions_eq]
  exact (List.pairwise_lt_range _).filter _

lemma maskFilter_eq_map {α : Type*} (d : α) :
    ∀ (m : List Bool) (l : List α), m.length = l.length →
      maskFilter m l = (truePositions m).map (fun p => l.getD p d) := by
  intro m
  induction m with
  | nil =>
    intro l h
    cases l with
    | nil => rfl
    | cons x xs => simp at h
  | cons b m ih =>
    intro l h
    cases l with
    | nil => simp at h
    | cons x xs =>
      have h' : m.length = xs.length := by simpa using h
      cases b with
      | false =>
        have h1 : maskFilter (false :: m) (x :: xs) = maskFilter m xs := by
          simp [maskFilter]
        rw [h1, truePositions, if_neg (by simp), List.map_map, ih xs h']
        exact List.map_congr_left (fun p _ => rfl)
      | true =>
        have h1 : maskFilter (true :: m) (x :: xs) = x :: maskFilter m xs := by
          simp [maskFilter]
        rw [h1, truePositions, if_pos rfl, List.map_cons, List.map_map, ih xs h']
        rw [List.getD_cons_zero]
        congr 1

lemma countP_range_lt {L P : Nat} (hP : P ≤ L) (q : Nat → Bool) :
    (List.range P).countP q = (List.range L).countP (fun j => decide (j < P) && q j) := by
  have hL : L = P + (L - P) := by omega
  rw [hL, List.range_add, List.countP_append]
  have h1 : (List.range P).countP (fun j => decide (j < P) && q j)
      = (List.range P).countP q := by
    apply List.countP_congr
    intro j hj
    simp [List.mem_range.mp hj]
  have h2 : ((List.range (L - P)).map (P + ·)).countP (fun j => decide (j < P) && q j)
      = 0 := by
    rw [List.countP_map]
    apply List.countP_eq_zero.mpr
    intro a _
    simp only [Function.comp_apply, Bool.and_eq_true, decide_eq_true_eq]
    rintro ⟨h1, -⟩
    omega
  omega

lemma sorted_take_filter : ∀ {u : List Nat}, u.Pairwise (· < ·) → ∀ {i : Nat}, i < u.length →
    u.take i = u.filter (fun x => decide (x < u.getD i 0)) := by
  intro u
  induction u with
  | nil =>
    intro _ i hi
    simp at hi
  | cons x u ih =>
    intro hu i hi
    obtain ⟨hx, hu'⟩ := List.pairwise_cons.mp hu
    cases i with
    | zero =>
      simp only [List.take_zero, List.getD_cons_zero]
      symm
      apply List.filter_eq_nil_iff.mpr
      intro a ha
      rcases List.mem_cons.mp ha with rfl | ha'
      · simp
      · have := hx a ha'
        simp only [decide_eq_true_eq]
        omega
    | succ i =>
      have hiu : i < u.length := by simpa using hi
      rw [List.take_succ_cons, List.getD_cons_succ, List.filter_cons]
      have hxi : x < u.getD i 0 := by
        have hmem : u.getD i 0 ∈ u := by
          rw [List.getD_eq_getElem u 0 hiu]
          exact List.getElem_mem hiu
        exact hx _ hmem
      rw [if_pos (by simpa using hxi)]
      congr 1
      exact ih hu' hiu

lemma countP_take_sorted {u : List Nat} (hu : u.Pairwise (· < ·)) {i : Nat}
    (hi : i < u.length) (q : Nat → Bool) :
    (u.take i).countP q = u.countP (fun p => decide (p < u.getD i 0) && q p) := by
  rw [sorted_take_filter hu hi, List.countP_filter]
  apply List.countP_congr
  intro p _
  simp [Bool.and_comm]

lemma range_map_getD {α β : Type*} (d : α) (F : α → β) :
    ∀ (l : List α), (List.range l.length).map (fun i => F (l.getD i d)) = l.map F := by
  intro l
  induction l with
  | nil => rfl
  | cons x xs ih =>
    rw [List.length_cons, range_succ_eq', List.map_cons, List.map_map]
    rw [List.getD_cons_zero]
    congr 1

lemma powers_getD {p : Nat} (hp : p < 5) : [81, 27, 9, 3, 1].getD p 0 = posPower 5 p := by
  interval_cases p <;> rfl

lemma mnot_getD (s g : Word) (hm5 : (wordMatches s g).length = 5) {j : Nat} (hj : j < 5) :
    ((wordMatches s g).map (fun b => !b)).getD j false = !(isMatch s g j) := by
  have hjm : j < ((wordMatches s g).map (fun b => !b)).length := by simpa [hm5] using hj
  rw [List.getD_eq_getElem _ false hjm, List.getElem_map, isMatch,
    List.getD_eq_getElem _ false (by simpa [hm5] using hj)]

lemma up_eq (s g : Word) (hm5 : (wordMatches s g).length = 5) :
    truePositions ((wordMatches s g).map (fun b => !b))
      = (List.range 5).filter (fun i => !(isMatch s g i)) := by
  rw [truePositions_eq]
  have hlen : ((wordMatches s g).map (fun b => !b)).length = 5 := by simp [hm5]
  rw [hlen]
  exact List.filter_congr (fun i hi => mnot_getD s g hm5 (List.mem_range.mp hi))

lemma mp_eq (s g : Word) (hm5 : (wordMatches s g).length = 5) :
    truePositions (wordMatches s g) = (List.range 5).filter (fun i => isMatch s g i) := by
  rw [truePositions_eq, hm5]
  exact List.filter_congr (fun i _ => rfl)

lemma up_countP (s g : Word) (hm5 : (wordMatches s g).length = 5) {u : List Nat}
    (hu : u = truePositions ((wordMatches s g).map (fun b => !b))) (q : Nat → Bool) :
    u.countP q = (List.range 5).countP (fun j => q j && !(isMatch s g j)) := by
  rw [hu, up_eq s g hm5, List.countP_filter]

lemma already_eq (s g : Word) (_hm5 : (wordMatches s g).length = 5) {P : Nat} (hP : P < 5) :
    alreadyObserved s g P
      = (List.range 5).countP
          (fun j => decide (j < P) && (!(isMatch s g j) && (g.getD j 0 == g.getD P 0))) := by
  rw [alreadyObserved, ← List.countP_eq_length_filter]
  exact countP_range_lt (by omega) _

lemma numTimes_eq (s g : Word) (hm5 : (wordMatches s g).length = 5) (P : Nat) :
    numTimesInSolution s g P
      = (List.range 5).countP
          (fun j => !(isMatch s g j) && (g.getD P 0 == s.getD j 0)) := by
  rw [numTimesInSolution, hm5, ← List.countP_eq_length_filter]

lemma countA_general (s g : Word) (hm5 : (wordMatches s g).length = 5)
    (u : List Nat) (hu : u = truePositions ((wordMatches s g).map (fun b => !b)))
    {i : Nat} (hiu : i < u.length) :
    ((u.map (fun p => g.getD p 0)).take i).countP
        (fun x => x == g.getD (u.getD i 0) 0)
      = alreadyObserved s g (u.getD i 0) := by
  have hsort : u.Pairwise (· < ·) := by
    rw [hu]
    exact truePositions_sorted _
  have hu5 : ∀ p ∈ u, p < 5 := by
    intro p hp
    rw [hu] at hp
    have := truePositions_lt hp
    simpa [hm5] using this
  have hP5 : u.getD i 0 < 5 := by
    apply hu5
    rw [List.getD_eq_getElem u 0 hiu]
    exact List.getElem_mem hiu
  rw [← List.map_take, List.countP_map, countP_take_sorted hsort hiu,
    up_countP s g hm5 hu, already_eq s g hm5 hP5]
  apply List.countP_congr
  intro j _
  simp only [Function.comp_apply, Bool.and_eq_true, decide_eq_true_eq, beq_iff_eq,
    Bool.not_eq_true']
  tauto

lemma countS_general (s g : Word) (hm5 : (wordMatches s g).length = 5)
    (u : List Nat) (hu : u = truePositions ((wordMatches s g).map (fun b => !b)))
    (i : Nat) :
    (u.map (fun p => s.getD p 0)).countP (fun x => x == g.getD (u.getD i 0) 0)
      = numTimesInSolution s g (u.getD i 0) := by
  rw [List.countP_map, up_countP s g hm5 hu, numTimes_eq s g hm5]
  apply List.countP_congr
  intro j _
  simp only [Function.comp_apply, Bool.and_eq_true, beq_iff_eq, Bool.not_eq_true']
  constructor
  · rintro ⟨a, b⟩
    exact ⟨b, a.symm⟩
  · rintro ⟨a, b⟩
    exact ⟨b.symm, a⟩

lemma exact_part_eq (s g : Word) (hs : s.length = 5) (hg : g.length = 5) :
    2 * (maskFilter (wordMatches s g) [81, 27, 9, 3, 1]).sum
      = (((List.range 5).filter (fun i => isMatch s g i)).map
          (fun i => 2 * posPower 5 i)).sum := by
  have hm5 : (wordMatches s g).length = 5 := by
    rw [wordMatches_length s g (by omega)]
    exact hg
  rw [maskFilter_eq_map 0 _ _ (by simp [hm5]), ← List.sum_map_mul_left, mp_eq s g hm5]
  congr 1
  apply List.map_congr_left
  intro p hp
  have hp5 : p < 5 := List.mem_range.mp (List.mem_filter.mp hp).1
  rw [powers_getD hp5]

lemma partial_part_eq (s g : Word) (hs : s.length = 5) (hg : g.length = 5) :
    ((List.range
        (maskFilter ((wordMatches s g).map (fun b => !b)) [81, 27, 9, 3, 1]).length).map
      (fun i =>
        if ((maskFilter ((wordMatches s g).map (fun b => !b)) g).take i).countP
              (fun x => x == (maskFilter ((wordMatches s g).map (fun b => !b)) g).getD i 0)
            < (maskFilter ((wordMatches s g).map (fun b => !b)) s).countP
              (fun x => x == (maskFilter ((wordMatches s g).map (fun b => !b)) g).getD i 0)
        then (maskFilter ((wordMatches s g).map (fun b => !b)) [81, 27, 9, 3, 1]).getD i 0
        else 0)).sum
      = (((List.range 5).filter (fun i => !isMatch s g i)).map
          (fun i => if alreadyObserved s g i < numTimesInSolution s g i
                    then posPower 5 i else 0)).sum := by
  have hm5 : (wordMatches s g).length = 5 := by
    rw [wordMatches_length s g (by omega)]
    exact hg
  set u := truePositions ((wordMatches s g).map (fun b => !b)) with hu
  have hu5 : ∀ p ∈ u, p < 5 := by
    intro p hp
    rw [hu] at hp
    have := truePositions_lt hp
    simpa [hm5] using this
  rw [maskFilter_eq_map 0 _ [81, 27, 9, 3, 1] (by simp [hm5]),
    maskFilter_eq_map 0 _ g (by simp [hm5, hg]),
    maskFilter_eq_map 0 _ s (by simp [hm5, hs]), ← hu, List.length_map]
  have step2 : (u.map (fun p =>
      if alreadyObserved s g p < numTimesInSolution s g p then posPower 5 p else 0)).sum
      = (((List.range 5).filter (fun i => !isMatch s g i)).map
          (fun i => if alreadyObserved s g i < numTimesInSolution s g i
                    then posPower 5 i else 0)).sum := by
    rw [hu, up_eq s g hm5]
  refine Eq.trans ?_ step2
  rw [← range_map_getD 0 (fun p =>
    if alreadyObserved s g p < numTimesInSolution s g p then posPower 5 p else 0) u]
  congr 1
  apply List.map_congr_left
  intro i hi
  have hiu : i < u.length := List.mem_range.mp hi
  have hlet : (u.map (fun p => g.getD p 0)).getD i 0 = g.getD (u.getD i 0) 0 := by
    rw [List.getD_eq_getElem _ 0 (by simpa using hiu), List.getElem_map,
      ← List.getD_eq_getElem u 0 hiu]
  have hpow : (u.map (fun p => [81, 27, 9, 3, 1].getD p 0)).getD i 0
      = posPower 5 (u.getD i 0) := by
    rw [List.getD_eq_getElem _ 0 (by simpa using hiu), List.getElem_map,
      ← List.getD_eq_getElem u 0 hiu]
    apply powers_getD
    apply hu5
    rw [List.getD_eq_getElem u 0 hiu]
    exact List.getElem_mem hiu
  rw [hlet, hpow, countA_general s g hm5 u hu hiu, countS_general s g hm5 u hu i]

/-- Claim C10: for length-5 words, the optimized `score_word_jit` agrees with
the retained readable reference implementation `score_word_slow` on the same
letter vectors. -/
theorem C10_score_word_slow_eq_jit (s g : Word) (hs : s.length = 5) (hg : g.length = 5) :
    score_word_slow s g = score_word_jit s g := by
  have hm5 : (wordMatches s g).length = 5 := by
    rw [wordMatches_length s g (by omega)]
    exact hg
  rw [score_word_slow, score_word_jit, hm5, exact_part_eq s g hs hg,
    partial_part_eq s g hs hg]

/-- Witness for C10: solution SPEED against guess ERASE. -/
theorem C10_score_word_slow_eq_jit_witness :
    score_word_slow [19, 16, 5, 5, 4] [5, 18, 1, 19, 5]
      = score_word_jit [19, 16, 5, 5, 4] [5, 18, 1, 19, 5] :=
  C10_score_word_slow_eq_jit [19, 16, 5, 5, 4] [5, 18, 1, 19, 5] (by decide) (by decide)

end Nerdle